import Mathlib

/-!
Verification of the block-metadata synchronization and filtering core
(`MetaFetcher`, `loadMeta`, and the filter/modifier pipeline of the `block`
package): a shallow embedding of the Go source, with theorems checking the
natural-language specification against it.

Conventions of the embedding:
* Go `map[ulid.ULID]x` values are association lists `List (ULID × x)` with
  `mlookup` / `merase` / `minsert` mirroring map read, `delete`, and
  assignment.  Real fetches have pairwise-distinct keys; theorems that need
  this carry a `Nodup` hypothesis on the key list.
* The object store (`BucketReader`) is external; its per-block responses are
  inputs (`ObjState`, and a `load` function for whole fetches).  Machine
  integers that overflow (`uint64` in `ConsistencyDelayMetaFilter`) are `Nat`
  with explicit `% 2^64`.
* Goroutine worker pools merge their per-block results under one mutex and
  each block is handled entirely by one worker, so a `Fetch` is embedded as a
  sequential fold over the enumerated IDs; the per-resolution goroutines of
  `DeduplicateFilter.Filter` act on disjoint key sets and are folded in
  sequence.
-/

/-- Modelled from the spec: a ULID is a 128-bit time-sortable identifier
embedding a 48-bit millisecond timestamp (`id.Time()`); lexicographic order
on the raw bytes equals order on (timestamp, random remainder).  The `ulid`
library itself is an external dependency of the repository. -/
structure ULID where
  time : Nat
  rand : Nat
deriving DecidableEq, Repr

/-- `ulid.ULID.Compare`: three-way byte comparison, which coincides with the
lexicographic comparison of the timestamp and the random part. -/
def ULID.compare (a b : ULID) : Int :=
  if a.time < b.time then -1
  else if b.time < a.time then 1
  else if a.rand < b.rand then -1
  else if b.rand < a.rand then 1
  else 0

/-- Modelled from the spec: the `metadata.Meta` descriptor (the `metadata`
package is not part of the sources at hand), restricted to the fields the
fetcher core reads: identity, time bounds, version, `Compaction.Sources`,
`Thanos.Downsample.Resolution`, `Thanos.Labels` and `Thanos.Source`. -/
structure Meta where
  ulid : ULID
  minTime : Int
  maxTime : Int
  version : Nat
  sources : List ULID
  resolution : Int
  labels : List (String × String)
  source : String
deriving DecidableEq, Repr

/-- Modelled from the spec: `metadata.MetaVersion1`, the single supported
meta-file version. -/
def supportedMetaVersion : Nat := 1

/-- Modelled from the spec: the trusted producer tags exempted from the
consistency delay (`bucket-repair`, `compactor`, `compactor-repair`). -/
def bucketRepairSource : String := "bucket-repair"

/-- Modelled from the spec: the `compactor` producer tag. -/
def compactorSource : String := "compactor"

/-- Modelled from the spec: the `compactor-repair` producer tag. -/
def compactorRepairSource : String := "compactor-repair"

/-- Go map read `m[id]` on an association list. -/
def mlookup {α : Type} (id : ULID) : List (ULID × α) → Option α
  | [] => none
  | p :: rest => if p.1 = id then some p.2 else mlookup id rest

/-- Go `delete(m, id)` on an association list. -/
def merase {α : Type} (id : ULID) : List (ULID × α) → List (ULID × α)
  | [] => []
  | p :: rest => if p.1 = id then merase id rest else p :: merase id rest

/-- Go map assignment `m[id] = v` on an association list. -/
def minsert {α : Type} (id : ULID) (v : α) (m : List (ULID × α)) : List (ULID × α) :=
  merase id m ++ [(id, v)]

/-- The key set of an association list. -/
def mkeys {α : Type} (m : List (ULID × α)) : List ULID := m.map Prod.fst

deriving instance DecidableEq for Except

/-- The sentinel / error classification of `loadMeta` results:
`ErrorSyncMetaNotFound`, `ErrorSyncMetaCorrupted`, and everything else
(`errors.Cause` falling into the `default` branch of the worker switch). -/
inductive LoadErr where
  | notFound
  | corrupted
  | other
deriving DecidableEq, Repr

/-- The bucket's behaviour for one block's `meta.json` during one `loadMeta`
call: the outcome of `bkt.Exists` and, if reached, of `bkt.Get` plus JSON
unmarshalling. -/
inductive ObjState where
  | existsErr
  | notExists
  | getNotFound
  | getErr
  | badJson
  | parsed (m : Meta)
deriving DecidableEq, Repr

/-- The remote branch of `MetaFetcher.loadMeta` (after the exists pre-check
and the in-memory / disk cache shortcuts): `bkt.Get`, read, unmarshal, and
the version check, which returns a NON-sentinel error on mismatch. -/
def loadMetaRemote (obj : ObjState) : Except LoadErr Meta :=
  match obj with
  | ObjState.existsErr => Except.error LoadErr.other
  | ObjState.notExists => Except.error LoadErr.notFound
  | ObjState.getNotFound => Except.error LoadErr.notFound
  | ObjState.getErr => Except.error LoadErr.other
  | ObjState.badJson => Except.error LoadErr.corrupted
  | ObjState.parsed m =>
    if m.version = supportedMetaVersion then Except.ok m else Except.error LoadErr.other

/-- `MetaFetcher.loadMeta`: exists pre-check (transient error wrapped, absent
object is `ErrorSyncMetaNotFound`), then the in-memory cache shortcut, then
the best-effort disk cache (`some m` models a readable cached `meta.json`;
unreadable cache dirs are removed and fall through, i.e. behave as `none`),
then the remote load `loadMetaRemote`.  The best-effort write-back to the
disk cache has no effect on the returned value and is not modelled. -/
def loadMeta (cachedEntry diskCache : Option Meta) (obj : ObjState) : Except LoadErr Meta :=
  match obj with
  | ObjState.existsErr => Except.error LoadErr.other
  | ObjState.notExists => Except.error LoadErr.notFound
  | o =>
    match cachedEntry with
    | some m => Except.ok m
    | none =>
      match diskCache with
      | some m => Except.ok m
      | none => loadMetaRemote o

/-- The mutable state a `Fetch` accumulates under its mutex: the `metas` and
`partial` result maps, the `synced{no-meta-json | corrupted-meta-json |
failed}` staging counters, and the length of the `metaErrs` accumulator. -/
structure FetchAcc where
  metas : List (ULID × Meta)
  pmap : List (ULID × LoadErr)
  noMetaC : Nat
  corruptedC : Nat
  failedC : Nat
  metaErrs : Nat
deriving DecidableEq, Repr

/-- The empty accumulator at the start of a `Fetch`. -/
def emptyFetchAcc : FetchAcc :=
  { metas := [], pmap := [], noMetaC := 0, corruptedC := 0, failedC := 0, metaErrs := 0 }

/-- One worker iteration of `MetaFetcher.Fetch`: load the block and either
store it in `metas`, or classify the error (sentinel `NotFound` / `Corrupted`
into `partial` with its per-state counter, anything else into `metaErrs` with
`synced{failed}`). -/
def fetchStep (load : ULID → Except LoadErr Meta) (a : FetchAcc) (id : ULID) : FetchAcc :=
  match load id with
  | Except.ok m => { a with metas := minsert id m a.metas }
  | Except.error LoadErr.notFound =>
    { a with pmap := minsert id LoadErr.notFound a.pmap, noMetaC := a.noMetaC + 1 }
  | Except.error LoadErr.corrupted =>
    { a with pmap := minsert id LoadErr.corrupted a.pmap, corruptedC := a.corruptedC + 1 }
  | Except.error LoadErr.other =>
    { a with failedC := a.failedC + 1, metaErrs := a.metaErrs + 1 }

/-- The filter pipeline of `Fetch`: each stage may transform `metas` or abort
with an error, in registration order. -/
def applyFilters :
    List (List (ULID × Meta) → Except Unit (List (ULID × Meta))) →
      List (ULID × Meta) → Except Unit (List (ULID × Meta))
  | [], metas => Except.ok metas
  | f :: rest, metas =>
    match f metas with
    | Except.error e => Except.error e
    | Except.ok m2 => applyFilters rest m2

/-- What one `Fetch` returns and leaves behind: the returned `metas` and
`partial` maps (both nil when a filter aborted the fetch), the fetcher's
in-memory `cached` map afterwards, the `incomplete view` error flag, the
filter-abort flag, and the per-state counters. -/
structure FetchOutput where
  metas : List (ULID × Meta)
  pmap : List (ULID × LoadErr)
  cached : List (ULID × Meta)
  incompleteView : Bool
  filterFailed : Bool
  noMetaC : Nat
  corruptedC : Nat
  failedC : Nat
deriving DecidableEq, Repr

/-- `MetaFetcher.Fetch` over an enumeration that succeeded (a `bkt.Iter`
failure returns before any cache update and is out of scope here): run the
workers over the enumerated block IDs, set `incompleteView` iff `metaErrs` is
non-empty, replace `cached` by a (shallow) copy of the collected `metas` only
on a complete view, then run the filter pipeline; a filter error yields nil
result maps. -/
def fetch (prevCached : List (ULID × Meta)) (ids : List ULID)
    (load : ULID → Except LoadErr Meta)
    (filters : List (List (ULID × Meta) → Except Unit (List (ULID × Meta)))) : FetchOutput :=
  let acc := ids.foldl (fetchStep load) emptyFetchAcc
  let incView := acc.metaErrs != 0
  let newCached := if incView then prevCached else acc.metas
  match applyFilters filters acc.metas with
  | Except.error _ =>
    { metas := [], pmap := [], cached := newCached, incompleteView := incView,
      filterFailed := true, noMetaC := acc.noMetaC, corruptedC := acc.corruptedC,
      failedC := acc.failedC }
  | Except.ok fm =>
    { metas := fm, pmap := acc.pmap, cached := newCached, incompleteView := incView,
      filterFailed := false, noMetaC := acc.noMetaC, corruptedC := acc.corruptedC,
      failedC := acc.failedC }

/-- Whether a load outcome falls into the `default` (transient, `failed`)
branch of the worker switch. -/
def isTransientLoad : Except LoadErr Meta → Bool
  | Except.error LoadErr.other => true
  | _ => false

/-- Whether a load outcome is a success. -/
def isOkLoad : Except LoadErr Meta → Bool
  | Except.ok _ => true
  | _ => false

/-- Whether a load outcome is one of the two sentinel errors that land in the
`partial` map. -/
def isSentinelLoad : Except LoadErr Meta → Bool
  | Except.error LoadErr.notFound => true
  | Except.error LoadErr.corrupted => true
  | _ => false

/-- A fetch saw at least one transient (non-`NotFound`, non-`Corrupted`)
per-block load error. -/
def hasTransientErr (ids : List ULID) (load : ULID → Except LoadErr Meta) : Bool :=
  ids.any (fun id => isTransientLoad (load id))

/-- The `metas` map as collected by the workers, before the filter pipeline
runs. -/
def preFilterMetas (ids : List ULID) (load : ULID → Except LoadErr Meta) :
    List (ULID × Meta) :=
  (ids.foldl (fetchStep load) emptyFetchAcc).metas

theorem fetchStep_metaErrs (load : ULID → Except LoadErr Meta) (a : FetchAcc) (id : ULID) :
    (fetchStep load a id).metaErrs =
      a.metaErrs + (if isTransientLoad (load id) then 1 else 0) := by
  cases h : load id with
  | ok m => simp [fetchStep, h, isTransientLoad]
  | error e => cases e <;> simp [fetchStep, h, isTransientLoad]

theorem foldl_fetchStep_metaErrs (load : ULID → Except LoadErr Meta) :
    ∀ (ids : List ULID) (a : FetchAcc),
      (ids.foldl (fetchStep load) a).metaErrs =
        a.metaErrs + ids.countP (fun id => isTransientLoad (load id)) := by
  intro ids
  induction ids with
  | nil => intro a; simp
  | cons id rest ih =>
    intro a
    rw [List.foldl_cons, ih, fetchStep_metaErrs, List.countP_cons]
    by_cases h : isTransientLoad (load id) = true <;> simp [h] <;> omega

theorem fetch_metaErrs_iff (ids : List ULID) (load : ULID → Except LoadErr Meta) :
    ((ids.foldl (fetchStep load) emptyFetchAcc).metaErrs != 0) = hasTransientErr ids load := by
  rw [foldl_fetchStep_metaErrs]
  simp only [emptyFetchAcc, Nat.zero_add]
  rcases h : hasTransientErr ids load with _ | _
  · unfold hasTransientErr at h
    have hc : ids.countP (fun id => isTransientLoad (load id)) = 0 := by
      rw [List.countP_eq_zero]
      intro a ha
      have := List.any_eq_false.mp h a ha
      simp_all
    rw [hc]
    rfl
  · unfold hasTransientErr at h
    obtain ⟨a, ha, hta⟩ := List.any_eq_true.mp h
    have hc : 0 < ids.countP (fun id => isTransientLoad (load id)) :=
      List.countP_pos_iff.mpr ⟨a, ha, by simp_all⟩
    have hne : ids.countP (fun id => isTransientLoad (load id)) ≠ 0 := by omega
    simp [hne]

/-- C1: if any per-block load of a fetch failed with a transient
(non-`NotFound`, non-`Corrupted`) error, the in-memory `cached` map is left
unchanged; otherwise `cached` is replaced by the `metas` map as collected
before the filter pipeline ran (this holds whether or not a filter later
deletes entries or aborts). -/
theorem fetch_cached_update (prev : List (ULID × Meta)) (ids : List ULID)
    (load : ULID → Except LoadErr Meta)
    (filters : List (List (ULID × Meta) → Except Unit (List (ULID × Meta)))) :
    (fetch prev ids load filters).cached =
      if hasTransientErr ids load then prev else preFilterMetas ids load := by
  rw [← fetch_metaErrs_iff ids load]
  unfold fetch preFilterMetas
  cases h : applyFilters filters ((List.foldl (fetchStep load) emptyFetchAcc ids).metas) <;>
    simp only [h] <;>
    cases hv : ((List.foldl (fetchStep load) emptyFetchAcc ids).metaErrs != 0) <;>
    simp [hv]

theorem mlookup_append {α : Type} (id : ULID) (m1 m2 : List (ULID × α)) :
    mlookup id (m1 ++ m2) =
      match mlookup id m1 with
      | some v => some v
      | none => mlookup id m2 := by
  induction m1 with
  | nil => simp [mlookup]
  | cons p rest ih =>
    by_cases h : p.1 = id <;> simp [mlookup, h, ih]

theorem mlookup_merase_self {α : Type} (id : ULID) (m : List (ULID × α)) :
    mlookup id (merase id m) = none := by
  induction m with
  | nil => simp [merase, mlookup]
  | cons p rest ih =>
    by_cases h : p.1 = id <;> simp [merase, mlookup, h, ih]

theorem mlookup_merase_ne {α : Type} (id id' : ULID) (m : List (ULID × α)) (h : id' ≠ id) :
    mlookup id (merase id' m) = mlookup id m := by
  induction m with
  | nil => simp [merase]
  | cons p rest ih =>
    simp only [merase]
    by_cases hp : p.1 = id'
    · rw [if_pos hp, ih]
      have hne : ¬(p.1 = id) := by rw [hp]; exact h
      simp [mlookup, hne]
    · rw [if_neg hp]
      simp [mlookup, ih]

theorem mlookup_minsert_self {α : Type} (id : ULID) (v : α) (m : List (ULID × α)) :
    mlookup id (minsert id v m) = some v := by
  unfold minsert
  rw [mlookup_append, mlookup_merase_self]
  simp [mlookup]

theorem mlookup_minsert_ne {α : Type} (id id' : ULID) (v : α) (m : List (ULID × α))
    (h : id' ≠ id) : mlookup id (minsert id' v m) = mlookup id m := by
  unfold minsert
  rw [mlookup_append, mlookup_merase_ne id id' m h]
  cases hm : mlookup id m <;> simp [mlookup, h, hm]

theorem metas_lookup_isSome (load : ULID → Except LoadErr Meta) :
    ∀ (ids : List ULID) (a : FetchAcc) (id : ULID),
      (mlookup id ((ids.foldl (fetchStep load) a).metas)).isSome = true ↔
        ((mlookup id a.metas).isSome = true ∨ (id ∈ ids ∧ isOkLoad (load id) = true)) := by
  intro ids
  induction ids with
  | nil => intro a id; simp
  | cons hd rest ih =>
    intro a id
    rw [List.foldl_cons]
    by_cases hid : id = hd
    · subst hid
      cases h : load id with
      | ok m =>
        rw [ih]
        constructor
        · intro _; right; exact ⟨List.mem_cons_self id rest, by simp [isOkLoad, h]⟩
        · intro _
          left
          simp [fetchStep, h, mlookup_minsert_self]
      | error e =>
        rw [ih]
        have hm : (fetchStep load a id).metas = a.metas := by
          cases e <;> simp [fetchStep, h]
        rw [hm]
        simp [h, isOkLoad]
    · have hm : mlookup id (fetchStep load a hd).metas = mlookup id a.metas := by
        cases h : load hd with
        | ok m => simp [fetchStep, h, mlookup_minsert_ne id hd m a.metas (fun hh => hid hh.symm)]
        | error e => cases e <;> simp [fetchStep, h]
      rw [ih, hm]
      simp [List.mem_cons, hid]

theorem pmap_lookup_isSome (load : ULID → Except LoadErr Meta) :
    ∀ (ids : List ULID) (a : FetchAcc) (id : ULID),
      (mlookup id ((ids.foldl (fetchStep load) a).pmap)).isSome = true ↔
        ((mlookup id a.pmap).isSome = true ∨ (id ∈ ids ∧ isSentinelLoad (load id) = true)) := by
  intro ids
  induction ids with
  | nil => intro a id; simp
  | cons hd rest ih =>
    intro a id
    rw [List.foldl_cons]
    by_cases hid : id = hd
    · subst hid
      cases h : load id with
      | ok m =>
        rw [ih]
        have hm : (fetchStep load a id).pmap = a.pmap := by simp [fetchStep, h]
        rw [hm]
        simp [h, isSentinelLoad]
      | error e =>
        cases e with
        | notFound =>
          rw [ih]
          constructor
          · intro _; right; exact ⟨List.mem_cons_self id rest, by simp [isSentinelLoad, h]⟩
          · intro _; left; simp [fetchStep, h, mlookup_minsert_self]
        | corrupted =>
          rw [ih]
          constructor
          · intro _; right; exact ⟨List.mem_cons_self id rest, by simp [isSentinelLoad, h]⟩
          · intro _; left; simp [fetchStep, h, mlookup_minsert_self]
        | other =>
          rw [ih]
          have hm : (fetchStep load a id).pmap = a.pmap := by simp [fetchStep, h]
          rw [hm]
          simp [h, isSentinelLoad]
    · have hm : mlookup id (fetchStep load a hd).pmap = mlookup id a.pmap := by
        cases h : load hd with
        | ok m => simp [fetchStep, h]
        | error e =>
          cases e <;>
            simp [fetchStep, h, mlookup_minsert_ne id hd _ a.pmap (fun hh => hid hh.symm)]
      rw [ih, hm]
      simp [List.mem_cons, hid]

/-- A pipeline stage that never adds map entries (every real filter and
modifier only deletes entries or rewrites values in place). -/
def filterShrinks (f : List (ULID × Meta) → Except Unit (List (ULID × Meta))) : Prop :=
  ∀ m m2, f m = Except.ok m2 →
    ∀ id : ULID, (mlookup id m2).isSome = true → (mlookup id m).isSome = true

theorem applyFilters_shrinks
    (filters : List (List (ULID × Meta) → Except Unit (List (ULID × Meta))))
    (hf : ∀ f ∈ filters, filterShrinks f) :
    ∀ m m2, applyFilters filters m = Except.ok m2 →
      ∀ id : ULID, (mlookup id m2).isSome = true → (mlookup id m).isSome = true := by
  induction filters with
  | nil =>
    intro m m2 h id hs
    simp only [applyFilters] at h
    cases h
    exact hs
  | cons f rest ih =>
    intro m m2 h id hs
    simp only [applyFilters] at h
    cases hfm : f m with
    | error e => rw [hfm] at h; cases h
    | ok mid =>
      rw [hfm] at h
      exact hf f (List.mem_cons_self f rest) m mid hfm id
        (ih (fun g hg => hf g (List.mem_cons_of_mem f hg)) mid m2 h id hs)

theorem not_ok_and_sentinel (r : Except LoadErr Meta) :
    ¬(isOkLoad r = true ∧ isSentinelLoad r = true) := by
  cases r with
  | ok m => simp [isOkLoad, isSentinelLoad]
  | error e => cases e <;> simp [isOkLoad, isSentinelLoad]

/-- C7: every block ID processed by a fetch ends up in at most one of the
returned maps — `metas` and `partial` are key-disjoint — and, whenever the
filter pipeline did not abort, `partial` contains exactly the observed block
IDs whose load ended in the `NotFound` or `Corrupted` sentinel.  The
hypothesis states that each pipeline stage only deletes entries or rewrites
values (true of every filter and modifier of the package). -/
theorem fetch_partial_disjoint (prev : List (ULID × Meta)) (ids : List ULID)
    (load : ULID → Except LoadErr Meta)
    (filters : List (List (ULID × Meta) → Except Unit (List (ULID × Meta))))
    (hf : ∀ f ∈ filters, filterShrinks f) :
    (∀ id : ULID,
        ¬((mlookup id (fetch prev ids load filters).metas).isSome = true ∧
          (mlookup id (fetch prev ids load filters).pmap).isSome = true)) ∧
    ((fetch prev ids load filters).filterFailed = false →
      ∀ id : ULID,
        ((mlookup id (fetch prev ids load filters).pmap).isSome = true ↔
          (id ∈ ids ∧ isSentinelLoad (load id) = true))) := by
  unfold fetch
  cases h : applyFilters filters ((List.foldl (fetchStep load) emptyFetchAcc ids).metas) with
  | error e =>
    simp only [h]
    constructor
    · intro id hcon
      simp [mlookup] at hcon
    · intro hff
      simp at hff
  | ok fm =>
    simp only [h]
    constructor
    · intro id hcon
      obtain ⟨h1, h2⟩ := hcon
      have hpre := applyFilters_shrinks filters hf _ fm h id h1
      rw [metas_lookup_isSome load ids emptyFetchAcc id] at hpre
      rw [pmap_lookup_isSome load ids emptyFetchAcc id] at h2
      simp [emptyFetchAcc, mlookup] at hpre h2
      exact not_ok_and_sentinel (load id) ⟨hpre.2, h2.2⟩
    · intro _ id
      rw [pmap_lookup_isSome load ids emptyFetchAcc id]
      simp [emptyFetchAcc, mlookup]

/-- The concrete instantiation of `fetch_partial_disjoint` at a one-block
bucket whose only load ends in the `NotFound` sentinel and an empty filter
pipeline. -/
theorem fetch_partial_disjoint_witness :
    (mlookup (ULID.mk 1 1)
        (fetch [] [ULID.mk 1 1] (fun _ => Except.error LoadErr.notFound) []).pmap).isSome =
      true :=
  ((fetch_partial_disjoint [] [ULID.mk 1 1] (fun _ => Except.error LoadErr.notFound) []
        (by simp)).2 rfl (ULID.mk 1 1)).mpr ⟨by simp, by decide⟩

/-- A block identifier used in concrete instances. -/
def u1 : ULID := { time := 1, rand := 1 }

/-- A descriptor whose `version` field differs from the supported version. -/
def metaV2 : Meta :=
  { ulid := u1, minTime := 0, maxTime := 1, version := 2, sources := [u1],
    resolution := 0, labels := [("ext1", "value1")], source := "sidecar" }

/-- C2 counterexample: a block whose `meta.json` parses but carries version 2
is NOT counted in `synced{corrupted-meta}` and is NOT placed in the returned
`partial` map; it lands in `synced{failed}` and `metaErrs`, making the view
incomplete — contradicting the claim that a version mismatch is a non-fatal
corrupted-meta condition. -/
theorem version_mismatch_not_corrupted_cex :
    loadMeta none none (ObjState.parsed metaV2) = Except.error LoadErr.other ∧
    (fetch [] [u1] (fun _ => loadMeta none none (ObjState.parsed metaV2)) []).pmap = [] ∧
    (fetch [] [u1] (fun _ => loadMeta none none (ObjState.parsed metaV2)) []).corruptedC = 0 ∧
    (fetch [] [u1] (fun _ => loadMeta none none (ObjState.parsed metaV2)) []).failedC = 1 ∧
    (fetch [] [u1] (fun _ => loadMeta none none (ObjState.parsed metaV2)) []).incompleteView =
      true := by
  decide

/-- C2 (amended): when `loadMeta` parses a `meta.json` whose `Version` field
differs from the supported version, it returns a non-sentinel error, so the
fetch counts the block in `synced{failed}`, appends the error to `metaErrs`
(making the view incomplete), and places the block in neither `metas` nor
`partial`. -/
theorem version_mismatch_counts_failed (m : Meta) (hv : m.version ≠ supportedMetaVersion)
    (load : ULID → Except LoadErr Meta) (a : FetchAcc) (id : ULID)
    (hl : load id = Except.error LoadErr.other) :
    loadMeta none none (ObjState.parsed m) = Except.error LoadErr.other ∧
    fetchStep load a id =
      { a with failedC := a.failedC + 1, metaErrs := a.metaErrs + 1 } := by
  constructor
  · simp [loadMeta, loadMetaRemote, hv]
  · simp [fetchStep, hl]

/-- The concrete instantiation of `version_mismatch_counts_failed` at the
version-2 descriptor. -/
theorem version_mismatch_counts_failed_witness :
    loadMeta none none (ObjState.parsed metaV2) = Except.error LoadErr.other ∧
    fetchStep (fun _ => Except.error LoadErr.other) emptyFetchAcc u1 =
      { emptyFetchAcc with failedC := 1, metaErrs := 1 } :=
  version_mismatch_counts_failed metaV2 (by decide)
    (fun _ => Except.error LoadErr.other) emptyFetchAcc u1 rfl

/-- 64-bit unsigned subtraction `a - b` as Go computes it on `uint64` values
(`a`, `b` < 2^64): the difference modulo 2^64, wrapping when `b > a`. -/
def uint64Sub (a b : Nat) : Nat := (2 ^ 64 + a - b) % 2 ^ 64

/-- The rejection test of `ConsistencyDelayMetaFilter.Filter`:
`ulid.Now()-id.Time() < uint64(f.consistencyDelay/time.Millisecond)` (in
uint64 arithmetic) while the block's `Thanos.Source` is none of the three
trusted producers. -/
def tooFreshCond (now delayMs : Nat) (id : ULID) (m : Meta) : Bool :=
  decide (uint64Sub now id.time < delayMs) &&
    !(m.source == bucketRepairSource) &&
    !(m.source == compactorSource) &&
    !(m.source == compactorRepairSource)

/-- One iteration of `ConsistencyDelayMetaFilter.Filter`: delete a too-fresh
block from the map and count it in `synced{too-fresh}`. -/
def consistencyStep (now delayMs : Nat) (acc : List (ULID × Meta) × Nat)
    (p : ULID × Meta) : List (ULID × Meta) × Nat :=
  if tooFreshCond now delayMs p.1 p.2 then (merase p.1 acc.1, acc.2 + 1) else acc

/-- `ConsistencyDelayMetaFilter.Filter`: iterate over the entries of `metas`,
deleting each too-fresh one.  `ulid.Now()` is sampled as a single `now` value
for the pass, and the configured delay is already in milliseconds. -/
def consistencyDelayMetaFilter (now delayMs : Nat) (metas : List (ULID × Meta)) :
    List (ULID × Meta) × Nat :=
  metas.foldl (consistencyStep now delayMs) (metas, 0)

/-- The keys of the entries of `l` that the consistency-delay filter rejects. -/
def tooFreshKeys (now delayMs : Nat) (l : List (ULID × Meta)) : List ULID :=
  (l.filter (fun p => tooFreshCond now delayMs p.1 p.2)).map Prod.fst

theorem merase_eq_filter {α : Type} (id : ULID) (m : List (ULID × α)) :
    merase id m = m.filter (fun q => decide (¬(q.1 = id))) := by
  induction m with
  | nil => rfl
  | cons p rest ih => by_cases h : p.1 = id <;> simp [merase, h, ih]

theorem tooFreshKeys_cons (now delayMs : Nat) (p : ULID × Meta) (rest : List (ULID × Meta)) :
    tooFreshKeys now delayMs (p :: rest) =
      if tooFreshCond now delayMs p.1 p.2 then p.1 :: tooFreshKeys now delayMs rest
      else tooFreshKeys now delayMs rest := by
  by_cases h : tooFreshCond now delayMs p.1 p.2 <;>
    simp [tooFreshKeys, List.filter_cons, h]

theorem consistencyDelay_fold (now delayMs : Nat) :
    ∀ (l m : List (ULID × Meta)) (c : Nat),
      l.foldl (consistencyStep now delayMs) (m, c) =
        (m.filter (fun q => decide (¬(q.1 ∈ tooFreshKeys now delayMs l))),
          c + l.countP (fun p => tooFreshCond now delayMs p.1 p.2)) := by
  intro l
  induction l with
  | nil =>
    intro m c
    simp [tooFreshKeys]
  | cons p rest ih =>
    intro m c
    by_cases h : tooFreshCond now delayMs p.1 p.2
    · have hstep : List.foldl (consistencyStep now delayMs) (m, c) (p :: rest) =
          List.foldl (consistencyStep now delayMs) (merase p.1 m, c + 1) rest := by
        rw [List.foldl_cons]
        simp only [consistencyStep, h, if_true]
      rw [hstep, ih, tooFreshKeys_cons, if_pos h, merase_eq_filter, List.filter_filter]
      rw [Prod.mk.injEq]
      constructor
      · apply List.filter_congr
        intro q hq
        simp only [List.mem_cons, decide_not]
        by_cases h1 : q.1 = p.1 <;> by_cases h2 : q.1 ∈ tooFreshKeys now delayMs rest <;>
          simp [h1, h2]
      · rw [List.countP_cons]
        simp [h]
        omega
    · have hstep : List.foldl (consistencyStep now delayMs) (m, c) (p :: rest) =
          List.foldl (consistencyStep now delayMs) (m, c) rest := by
        rw [List.foldl_cons]
        simp only [consistencyStep, h]
        simp
      rw [hstep, ih, tooFreshKeys_cons, if_neg h]
      rw [Prod.mk.injEq]
      constructor
      · rfl
      · rw [List.countP_cons]
        simp [h]

theorem nodup_keys_inj {α : Type} :
    ∀ (m : List (ULID × α)), (mkeys m).Nodup →
      ∀ p q : ULID × α, p ∈ m → q ∈ m → p.1 = q.1 → p = q := by
  intro m
  induction m with
  | nil => intro _ p q hp; simp at hp
  | cons r rest ih =>
    intro hn p q hp hq he
    rw [show mkeys (r :: rest) = r.1 :: mkeys rest from rfl, List.nodup_cons] at hn
    obtain ⟨hr, hn'⟩ := hn
    rcases List.mem_cons.mp hp with hp1 | hp2 <;> rcases List.mem_cons.mp hq with hq1 | hq2
    · rw [hp1, hq1]
    · exfalso
      apply hr
      rw [← hp1, he]
      exact List.mem_map_of_mem Prod.fst hq2
    · exfalso
      apply hr
      rw [← hq1, ← he]
      exact List.mem_map_of_mem Prod.fst hp2
    · exact ih hn' p q hp2 hq2 he

/-- C8 (amended): `ConsistencyDelayMetaFilter.Filter` removes exactly the
blocks for which `ulid.Now() - id.Time()`, computed in unsigned 64-bit
arithmetic, is smaller than the delay in milliseconds AND whose
`Thanos.Source` is none of `bucket-repair`, `compactor`, `compactor-repair`;
each removal increments `synced{too-fresh}` (the count equals the number of
removed blocks), and all other entries are kept unchanged. -/
theorem consistencyDelay_characterization (now delayMs : Nat)
    (metas : List (ULID × Meta)) (hk : (mkeys metas).Nodup) :
    (consistencyDelayMetaFilter now delayMs metas).1 =
      metas.filter (fun p => !(tooFreshCond now delayMs p.1 p.2)) ∧
    (consistencyDelayMetaFilter now delayMs metas).2 =
      (metas.filter (fun p => tooFreshCond now delayMs p.1 p.2)).length := by
  unfold consistencyDelayMetaFilter
  rw [consistencyDelay_fold now delayMs metas metas 0]
  constructor
  · apply List.filter_congr
    intro q hq
    rw [Bool.eq_iff_iff]
    simp only [decide_eq_true_eq, Bool.not_eq_true']
    constructor
    · intro hnk
      rcases hc : tooFreshCond now delayMs q.1 q.2 with _ | _
      · rfl
      · exfalso
        apply hnk
        unfold tooFreshKeys
        exact List.mem_map_of_mem Prod.fst (List.mem_filter.mpr ⟨hq, hc⟩)
    · intro hfalse hmem
      unfold tooFreshKeys at hmem
      obtain ⟨x, hx, hxe⟩ := List.mem_map.mp hmem
      have hxm := List.mem_filter.mp hx
      have hxq : x = q := nodup_keys_inj metas hk x q hxm.1 hq hxe
      rw [hxq] at hxm
      rw [hxm.2] at hfalse
      cases hfalse
  · rw [Nat.zero_add, List.countP_eq_length_filter]

/-- A ULID whose embedded timestamp lies in the future of the sampled `now`
used in the concrete consistency-delay instances. -/
def uFuture : ULID := { time := 2000, rand := 7 }

/-- A sidecar-produced block carrying the future-stamped ULID. -/
def metaFuture : Meta :=
  { ulid := uFuture, minTime := 0, maxTime := 1, version := 1, sources := [uFuture],
    resolution := 0, labels := [], source := "sidecar" }

/-- C8 counterexample: with `now = 1000` and a 500 ms delay, a sidecar block
whose ULID timestamp is 2000 has a creation time newer than `now - delay`
and an untrusted source, so by the claim it must be removed and counted in
`synced{too-fresh}` — but the unsigned subtraction wraps around and the
filter keeps it, counting nothing. -/
theorem consistencyDelay_future_block_cex :
    ((2000 : Int) > 1000 - 500) ∧
    metaFuture.source ≠ bucketRepairSource ∧
    metaFuture.source ≠ compactorSource ∧
    metaFuture.source ≠ compactorRepairSource ∧
    uFuture.time = 2000 ∧
    (consistencyDelayMetaFilter 1000 500 [(uFuture, metaFuture)]).1 =
      [(uFuture, metaFuture)] ∧
    (consistencyDelayMetaFilter 1000 500 [(uFuture, metaFuture)]).2 = 0 := by
  decide

/-- A recently-created sidecar block (not future-dated) used in the
consistency-delay witness. -/
def metaRecent : Meta :=
  { ulid := { time := 900, rand := 3 }, minTime := 0, maxTime := 1, version := 1,
    sources := [{ time := 900, rand := 3 }], resolution := 0, labels := [],
    source := "sidecar" }

/-- The concrete instantiation of `consistencyDelay_characterization`: a
900 ms-stamped sidecar block at `now = 1000` with a 500 ms delay is removed
and counted once. -/
theorem consistencyDelay_characterization_witness :
    (consistencyDelayMetaFilter 1000 500 [(metaRecent.ulid, metaRecent)]).1 = [] ∧
    (consistencyDelayMetaFilter 1000 500 [(metaRecent.ulid, metaRecent)]).2 = 1 := by
  have h := consistencyDelay_characterization 1000 500 [(metaRecent.ulid, metaRecent)]
    (by decide)
  rw [h.1, h.2]
  decide

/-- C10: any block whose ULID-embedded timestamp lies in the future of the
sampled `ulid.Now()` is kept by `ConsistencyDelayMetaFilter.Filter` and never
counted as too-fresh, regardless of its source, because the unsigned 64-bit
subtraction wraps around to a huge value (ULID timestamps are 48-bit, and
any delay converted from a non-negative `time.Duration` is at most 2^63 ms). -/
theorem consistencyDelay_wraparound_keeps_future (now delayMs : Nat)
    (metas : List (ULID × Meta)) (id : ULID) (m : Meta)
    (hmem : (id, m) ∈ metas) (hk : (mkeys metas).Nodup)
    (hfut : now < id.time) (h48 : id.time < 2 ^ 48) (hd : delayMs ≤ 2 ^ 63) :
    tooFreshCond now delayMs id m = false ∧
    (id, m) ∈ (consistencyDelayMetaFilter now delayMs metas).1 := by
  have p64 : (2 : Nat) ^ 64 = 18446744073709551616 := by norm_num
  have p63 : (2 : Nat) ^ 63 = 9223372036854775808 := by norm_num
  have p48 : (2 : Nat) ^ 48 = 281474976710656 := by norm_num
  have hsub : delayMs ≤ uint64Sub now id.time := by
    unfold uint64Sub
    have heq : 2 ^ 64 + now - id.time = 2 ^ 64 - (id.time - now) := by omega
    rw [heq, Nat.mod_eq_of_lt (by omega)]
    omega
  have hcond : tooFreshCond now delayMs id m = false := by
    unfold tooFreshCond
    have hdec : decide (uint64Sub now id.time < delayMs) = false := by
      simp only [decide_eq_false_iff_not, Nat.not_lt]
      exact hsub
    rw [hdec]
    simp
  refine ⟨hcond, ?_⟩
  rw [(consistencyDelay_characterization now delayMs metas hk).1]
  apply List.mem_filter.mpr
  refine ⟨hmem, ?_⟩
  simp [hcond]

/-- The concrete instantiation of `consistencyDelay_wraparound_keeps_future`
at the future-stamped sidecar block. -/
theorem consistencyDelay_wraparound_keeps_future_witness :
    tooFreshCond 1000 500 uFuture metaFuture = false ∧
    (uFuture, metaFuture) ∈ (consistencyDelayMetaFilter 1000 500 [(uFuture, metaFuture)]).1 :=
  consistencyDelay_wraparound_keeps_future 1000 500 [(uFuture, metaFuture)] uFuture metaFuture
    (by decide) (by decide) (by decide) (by decide) (by decide)

/-- The outcome of `metadata.ReadDeletionMark` for one block: the marker may
be absent (`ErrorDeletionMarkNotFound`), unparseable
(`ErrorUnmarshalDeletionMark`), unreadable (any other error), or valid with
its Unix-second `DeletionTime`. -/
inductive MarkRead where
  | notFound
  | unmarshalErr
  | readErr
  | valid (deletionTime : Int)
deriving DecidableEq, Repr

/-- The deletion time of a valid marker read, if any. -/
def markTime : MarkRead → Option Int
  | MarkRead.valid dt => some dt
  | _ => none

/-- The loop of `IgnoreDeletionMarkFilter.Filter` over the block IDs of
`metas`: skip absent markers, log-and-skip unparseable ones, abort on a read
error, and for a valid marker record it in `deletionMarkMap` and delete the
block (counting `synced{marked-for-deletion}`) when the mark is older than
the delay.  `time.Since(time.Unix(dt, 0)).Seconds() > f.delay.Seconds()` is
modelled at second granularity as `nowSec - dt > delaySec`. -/
def ignoreDeletionLoop (marks : ULID → MarkRead) (nowSec delaySec : Int) :
    List ULID → List (ULID × Meta) × List (ULID × Int) × Nat →
      Except Unit (List (ULID × Meta) × List (ULID × Int) × Nat)
  | [], st => Except.ok st
  | id :: rest, (m, mm, cnt) =>
    match marks id with
    | MarkRead.notFound => ignoreDeletionLoop marks nowSec delaySec rest (m, mm, cnt)
    | MarkRead.unmarshalErr => ignoreDeletionLoop marks nowSec delaySec rest (m, mm, cnt)
    | MarkRead.readErr => Except.error ()
    | MarkRead.valid dt =>
      if nowSec - dt > delaySec then
        ignoreDeletionLoop marks nowSec delaySec rest (merase id m, minsert id dt mm, cnt + 1)
      else
        ignoreDeletionLoop marks nowSec delaySec rest (m, minsert id dt mm, cnt)

/-- `IgnoreDeletionMarkFilter.Filter`: reset `deletionMarkMap` to empty —
discarding whatever `priorMarkMap` the previous invocation left — and run
the loop over the blocks of `metas`. -/
def ignoreDeletionMarkFilter (marks : ULID → MarkRead) (nowSec delaySec : Int)
    (priorMarkMap : List (ULID × Int)) (metas : List (ULID × Meta)) :
    Except Unit (List (ULID × Meta) × List (ULID × Int) × Nat) :=
  ignoreDeletionLoop marks nowSec delaySec (mkeys metas) (metas, [], 0)

theorem ignoreDeletionLoop_markMap (marks : ULID → MarkRead) (nowSec delaySec : Int) :
    ∀ (ids : List ULID) (st : List (ULID × Meta) × List (ULID × Int) × Nat) out,
      ignoreDeletionLoop marks nowSec delaySec ids st = Except.ok out →
      ∀ id : ULID,
        mlookup id out.2.1 =
          if id ∈ ids ∧ (markTime (marks id)).isSome = true then markTime (marks id)
          else mlookup id st.2.1 := by
  intro ids
  induction ids with
  | nil =>
    intro st out h id
    simp only [ignoreDeletionLoop] at h
    cases h
    simp
  | cons hd rest ih =>
    intro st out h id
    obtain ⟨m, mm, cnt⟩ := st
    simp only [ignoreDeletionLoop] at h
    by_cases hid : id = hd
    · subst hid
      cases hmk : marks id with
      | notFound =>
        simp only [hmk] at h
        rw [ih _ out h id]
        by_cases hmem : id ∈ rest <;> simp [hmem, markTime, hmk]
      | unmarshalErr =>
        simp only [hmk] at h
        rw [ih _ out h id]
        by_cases hmem : id ∈ rest <;> simp [hmem, markTime, hmk]
      | readErr => simp only [hmk] at h; exact Except.noConfusion h
      | valid dt =>
        simp only [hmk] at h
        by_cases hexp : nowSec - dt > delaySec
        · rw [if_pos hexp] at h
          rw [ih _ out h id]
          by_cases hmem : id ∈ rest <;>
            simp [hmem, hmk, markTime, mlookup_minsert_self]
        · rw [if_neg hexp] at h
          rw [ih _ out h id]
          by_cases hmem : id ∈ rest <;>
            simp [hmem, hmk, markTime, mlookup_minsert_self]
    · cases hmk : marks hd with
      | notFound =>
        simp only [hmk] at h
        rw [ih _ out h id]
        simp [List.mem_cons, hid]
      | unmarshalErr =>
        simp only [hmk] at h
        rw [ih _ out h id]
        simp [List.mem_cons, hid]
      | readErr => simp only [hmk] at h; exact Except.noConfusion h
      | valid dt =>
        have hne : hd ≠ id := fun hh => hid hh.symm
        simp only [hmk] at h
        by_cases hexp : nowSec - dt > delaySec
        · rw [if_pos hexp] at h
          rw [ih _ out h id]
          simp [List.mem_cons, hid, mlookup_minsert_ne id hd dt mm hne]
        · rw [if_neg hexp] at h
          rw [ih _ out h id]
          simp [List.mem_cons, hid, mlookup_minsert_ne id hd dt mm hne]

theorem ignoreDeletionLoop_no_readErr (marks : ULID → MarkRead) (nowSec delaySec : Int) :
    ∀ (ids : List ULID) (st : List (ULID × Meta) × List (ULID × Int) × Nat) out,
      ignoreDeletionLoop marks nowSec delaySec ids st = Except.ok out →
      ∀ id ∈ ids, marks id ≠ MarkRead.readErr := by
  intro ids
  induction ids with
  | nil => intro st out h id hmem; simp at hmem
  | cons hd rest ih =>
    intro st out h id hmem
    obtain ⟨m, mm, cnt⟩ := st
    simp only [ignoreDeletionLoop] at h
    rcases List.mem_cons.mp hmem with h1 | h2
    · subst h1
      cases hmk : marks id with
      | readErr => simp only [hmk] at h; exact Except.noConfusion h
      | notFound => simp [hmk]
      | unmarshalErr => simp [hmk]
      | valid dt => simp [hmk]
    · cases hmk : marks hd with
      | readErr => simp only [hmk] at h; exact Except.noConfusion h
      | notFound => simp only [hmk] at h; exact ih _ out h id h2
      | unmarshalErr => simp only [hmk] at h; exact ih _ out h id h2
      | valid dt =>
        simp only [hmk] at h
        by_cases hexp : nowSec - dt > delaySec
        · rw [if_pos hexp] at h; exact ih _ out h id h2
        · rw [if_neg hexp] at h; exact ih _ out h id h2

theorem ignoreDeletionLoop_ok_of_no_readErr (marks : ULID → MarkRead)
    (nowSec delaySec : Int) :
    ∀ (ids : List ULID) (st : List (ULID × Meta) × List (ULID × Int) × Nat),
      (∀ id ∈ ids, marks id ≠ MarkRead.readErr) →
      ∃ out, ignoreDeletionLoop marks nowSec delaySec ids st = Except.ok out := by
  intro ids
  induction ids with
  | nil => intro st _; exact ⟨st, rfl⟩
  | cons hd rest ih =>
    intro st hno
    obtain ⟨m, mm, cnt⟩ := st
    have hrest : ∀ id ∈ rest, marks id ≠ MarkRead.readErr := fun id hmem =>
      hno id (List.mem_cons_of_mem hd hmem)
    cases hmk : marks hd with
    | readErr => exact absurd hmk (hno hd (List.mem_cons_self hd rest))
    | notFound =>
      obtain ⟨out, hout⟩ := ih (m, mm, cnt) hrest
      exact ⟨out, by simp only [ignoreDeletionLoop, hmk]; exact hout⟩
    | unmarshalErr =>
      obtain ⟨out, hout⟩ := ih (m, mm, cnt) hrest
      exact ⟨out, by simp only [ignoreDeletionLoop, hmk]; exact hout⟩
    | valid dt =>
      by_cases hexp : nowSec - dt > delaySec
      · obtain ⟨out, hout⟩ := ih (merase hd m, minsert hd dt mm, cnt + 1) hrest
        refine ⟨out, ?_⟩
        simp only [ignoreDeletionLoop, hmk]
        rw [if_pos hexp]
        exact hout
      · obtain ⟨out, hout⟩ := ih (m, minsert hd dt mm, cnt) hrest
        refine ⟨out, ?_⟩
        simp only [ignoreDeletionLoop, hmk]
        rw [if_neg hexp]
        exact hout

theorem ignoreDeletionLoop_markMap_congr (marks : ULID → MarkRead) (nowSec : Int) :
    ∀ (ids : List ULID) (d1 d2 : Int) (m1 m2 : List (ULID × Meta))
      (mm : List (ULID × Int)) (c1 c2 : Nat) out1 out2,
      ignoreDeletionLoop marks nowSec d1 ids (m1, mm, c1) = Except.ok out1 →
      ignoreDeletionLoop marks nowSec d2 ids (m2, mm, c2) = Except.ok out2 →
      out1.2.1 = out2.2.1 := by
  intro ids
  induction ids with
  | nil =>
    intro d1 d2 m1 m2 mm c1 c2 out1 out2 h1 h2
    simp only [ignoreDeletionLoop] at h1 h2
    cases h1; cases h2; rfl
  | cons hd rest ih =>
    intro d1 d2 m1 m2 mm c1 c2 out1 out2 h1 h2
    simp only [ignoreDeletionLoop] at h1 h2
    cases hmk : marks hd with
    | readErr => simp only [hmk] at h1; exact Except.noConfusion h1
    | notFound =>
      simp only [hmk] at h1 h2
      exact ih d1 d2 m1 m2 mm c1 c2 out1 out2 h1 h2
    | unmarshalErr =>
      simp only [hmk] at h1 h2
      exact ih d1 d2 m1 m2 mm c1 c2 out1 out2 h1 h2
    | valid dt =>
      simp only [hmk] at h1 h2
      by_cases he1 : nowSec - dt > d1 <;> by_cases he2 : nowSec - dt > d2
      · rw [if_pos he1] at h1; rw [if_pos he2] at h2
        exact ih d1 d2 _ _ _ _ _ out1 out2 h1 h2
      · rw [if_pos he1] at h1; rw [if_neg he2] at h2
        exact ih d1 d2 _ _ _ _ _ out1 out2 h1 h2
      · rw [if_neg he1] at h1; rw [if_pos he2] at h2
        exact ih d1 d2 _ _ _ _ _ out1 out2 h1 h2
      · rw [if_neg he1] at h1; rw [if_neg he2] at h2
        exact ih d1 d2 _ _ _ _ _ out1 out2 h1 h2

/-- C6: after a successful `IgnoreDeletionMarkFilter.Filter` pass,
`DeletionMarkBlocks()` contains exactly the processed blocks with a valid
(parseable) `deletion-mark.json` — whether or not the grace delay dropped
them from `metas` — and the map is rebuilt from scratch: it is independent
of the configured delay and of whatever map a previous invocation left
behind. -/
theorem deletion_mark_blocks_exact (marks : ULID → MarkRead) (nowSec delaySec : Int)
    (prior : List (ULID × Int)) (metas : List (ULID × Meta))
    (out : List (ULID × Meta) × List (ULID × Int) × Nat)
    (h : ignoreDeletionMarkFilter marks nowSec delaySec prior metas = Except.ok out) :
    (∀ (id : ULID) (dt : Int),
        mlookup id out.2.1 = some dt ↔ (id ∈ mkeys metas ∧ marks id = MarkRead.valid dt)) ∧
    (∀ (delaySec' : Int) (prior' : List (ULID × Int)),
        ∃ out', ignoreDeletionMarkFilter marks nowSec delaySec' prior' metas = Except.ok out' ∧
          out'.2.1 = out.2.1) := by
  constructor
  · intro id dt
    rw [ignoreDeletionLoop_markMap marks nowSec delaySec (mkeys metas) (metas, [], 0) out h id]
    by_cases hmem : id ∈ mkeys metas
    · cases hmk : marks id with
      | valid dt' => simp [markTime, hmem, mlookup]
      | notFound => simp [markTime, hmem, mlookup]
      | unmarshalErr => simp [markTime, hmem, mlookup]
      | readErr => simp [markTime, hmem, mlookup]
    · rw [if_neg (fun hc => hmem hc.1)]
      simp [mlookup, hmem]
  · intro delaySec' prior'
    have hno := ignoreDeletionLoop_no_readErr marks nowSec delaySec (mkeys metas)
      (metas, [], 0) out h
    obtain ⟨out', hout'⟩ := ignoreDeletionLoop_ok_of_no_readErr marks nowSec delaySec'
      (mkeys metas) (metas, [], 0) hno
    exact ⟨out', hout',
      ignoreDeletionLoop_markMap_congr marks nowSec (mkeys metas) delaySec' delaySec
        metas metas [] 0 0 out' out hout' h⟩

/-- The concrete instantiation of `deletion_mark_blocks_exact`: one block
with a valid, already-expired marker stays in the rebuilt mark map even
though the filter dropped it from `metas`. -/
theorem deletion_mark_blocks_exact_witness :
    mlookup u1 ((([], [(u1, (0 : Int))], 1) :
        List (ULID × Meta) × List (ULID × Int) × Nat).2.1) = some 0 :=
  ((deletion_mark_blocks_exact (fun _ => MarkRead.valid 0) 100 5 [] [(u1, metaV2)]
      ([], [(u1, 0)], 1) rfl).1 u1 0).mpr ⟨by decide, rfl⟩

/-- A heap of `metadata.Meta` objects: Go pointer values (`*metadata.Meta`)
are addresses into this heap.  The `metas` and `cached` maps store addresses,
so a shallow map copy (`cached[id] = m` in the cache update of `Fetch`)
aliases the same heap cells. -/
def Heap : Type := Nat → Meta

/-- Write one heap cell. -/
def heapWrite (h : Heap) (addr : Nat) (m : Meta) : Heap :=
  fun a => if a = addr then m else h a

/-- The replica-label scan of `ReplicaLabelRemover.Modify` for one block:
`labels := meta.Thanos.Labels`, then for each configured replica label that
is present, `delete(labels, replicaLabel)` and one
`modified{replica-label-removed}` increment. -/
def removeReplicaLabels (replicaLabels : List String)
    (lbls : List (String × String)) (cnt : Nat) : List (String × String) × Nat :=
  replicaLabels.foldl
    (fun acc rl =>
      if acc.1.any (fun kv => kv.1 == rl) then
        (acc.1.filter (fun kv => !(kv.1 == rl)), acc.2 + 1)
      else acc)
    (lbls, cnt)

/-- `ReplicaLabelRemover.Modify`: for each entry of `metas` (a map from block
ID to the address of its `Meta`), rewrite the pointed-to `Thanos.Labels` in
place on the heap.  Returns the new heap and the total
`modified{replica-label-removed}` count. -/
def replicaLabelRemoverModify (replicaLabels : List String)
    (metas : List (ULID × Nat)) (h : Heap) : Heap × Nat :=
  metas.foldl
    (fun acc p =>
      let m := acc.1 p.2
      let r := removeReplicaLabels replicaLabels m.labels acc.2
      (heapWrite acc.1 p.2 { m with labels := r.1 }, r.2))
    (h, 0)

/-- A block descriptor carrying a replica label, for the aliasing instance. -/
def metaReplica : Meta :=
  { ulid := u1, minTime := 0, maxTime := 1, version := 1, sources := [u1],
    resolution := 0, labels := [("ext1", "value1"), ("replica", "1")],
    source := "sidecar" }

/-- A one-cell heap holding `metaReplica` at address 0. -/
def heapReplica : Heap := fun _ => metaReplica

/-- The fetch's `metas` map: block `u1` points to heap address 0. -/
def metasRefMap : List (ULID × Nat) := [(u1, 0)]

/-- The fetcher's `cached` map after the cache update of `Fetch`
(`cached[id] = m` entry by entry): a shallow copy holding the same pointers,
aliasing the same heap cells as `metas`. -/
def cachedRefMap : List (ULID × Nat) := metasRefMap

/-- C3: the `Meta` object shared between the fetch's `metas` map and the
in-memory `cached` map is mutated in place by `ReplicaLabelRemover.Modify`
of the same (or any later) fetch: the modifier deletes replica labels from
the label map reached through the stored pointer rather than from a copy, so
after it runs the descriptor seen through `cached` has lost its `replica`
label — the no-mutation-after-insertion invariant claimed by the spec fails
on this code. -/
theorem replicaLabelRemover_mutates_cached_meta :
    mlookup u1 cachedRefMap = some 0 ∧
    (heapReplica 0).labels = [("ext1", "value1"), ("replica", "1")] ∧
    ((replicaLabelRemoverModify ["replica", "rule_replica"] metasRefMap heapReplica).1 0).labels
        = [("ext1", "value1")] ∧
    (replicaLabelRemoverModify ["replica", "rule_replica"] metasRefMap heapReplica).1 0 ≠
      heapReplica 0 ∧
    (replicaLabelRemoverModify ["replica", "rule_replica"] metasRefMap heapReplica).2 = 1 := by
  decide

/-- `contains(s1, s2)` from the dedup filter: every element of `s2` occurs in
`s1`, where element equality is `ulid.ULID.Compare(...) == 0`. -/
def contains (s1 s2 : List ULID) : Bool :=
  s2.all (fun a => s1.any (fun e => a.compare e == 0))

mutual
/-- Modelled from the spec: a node of the deduplication forest — a block
meta plus its insertion-ordered children (the `Node` type is repository code
outside the sources at hand; the spec describes a forest rooted at a
synthetic root whose children lists grow in insertion order). -/
inductive Node where
  | mk : Meta → NodeList → Node
/-- Modelled from the spec: a children list of forest nodes (a dedicated
mutual inductive so the forest operations are plain structural recursion). -/
inductive NodeList where
  | nil : NodeList
  | cons : Node → NodeList → NodeList
end

/-- The meta carried by a node. -/
def Node.meta : Node → Meta
  | Node.mk m _ => m

/-- Append of children lists (Go `append(node.Children, add)`). -/
def nlAppend : NodeList → NodeList → NodeList
  | NodeList.nil, l => l
  | NodeList.cons n rest, l => NodeList.cons n (nlAppend rest l)

/-- A childless node for a newly inserted meta. -/
def leafNode (m : Meta) : Node := Node.mk m NodeList.nil

/-- `addNodeBySources(root, add)`: scan the children of the current node in
order; at the first child whose sources contain `add`'s, either attach `add`
as that child's child (mutual containment) or recurse into it; if no child
contains `add`'s sources, append `add` as a new child.  The synthetic root
is represented by its children list. -/
def addNodeBySources (add : Meta) : NodeList → NodeList
  | NodeList.nil => NodeList.cons (leafNode add) NodeList.nil
  | NodeList.cons (Node.mk cm cc) rest =>
    if contains cm.sources add.sources then
      if contains add.sources cm.sources then
        NodeList.cons (Node.mk cm (nlAppend cc (NodeList.cons (leafNode add) NodeList.nil))) rest
      else
        NodeList.cons (Node.mk cm (addNodeBySources add cc)) rest
    else
      NodeList.cons (Node.mk cm cc) (addNodeBySources add rest)

/-- The ULIDs of every node in a forest, at any depth. -/
def allIDs : NodeList → List ULID
  | NodeList.nil => []
  | NodeList.cons (Node.mk m cc) rest => m.ulid :: (allIDs cc ++ allIDs rest)

/-- Modelled from the spec: `getNonRootIDs(root)` — the IDs of every node
whose parent is not the synthetic root, i.e. all strict descendants of the
root's children. -/
def getNonRootIDs : NodeList → List ULID
  | NodeList.nil => []
  | NodeList.cons (Node.mk _ cc) rest => allIDs cc ++ getNonRootIDs rest

/-- The metas of the root's children, in insertion order. -/
def topMetas : NodeList → List Meta
  | NodeList.nil => []
  | NodeList.cons (Node.mk m _) rest => m :: topMetas rest

/-- The comparator of `filterForResolution`'s `sort.Slice`: larger source
set first, ties broken towards the smaller ULID.  (`sort.Slice` is not
stable, but block ULIDs are pairwise distinct, so the comparator determines
the sorted arrangement uniquely.) -/
def metaLE (a b : Meta) : Prop :=
  b.sources.length < a.sources.length ∨
    (a.sources.length = b.sources.length ∧ a.ulid.compare b.ulid ≤ 0)

instance : DecidableRel metaLE := fun a b => by unfold metaLE; infer_instance

/-- The sort of `filterForResolution`. -/
def sortMetas (l : List Meta) : List Meta := List.insertionSort metaLE l

/-- The forest a `filterForResolution` call builds: insert each meta of the
sorted partition under the synthetic root. -/
def buildForest (l : List Meta) : NodeList :=
  l.foldl (fun f m => addNodeBySources m f) NodeList.nil

/-- The metas of one downsampling-resolution partition
(`metasByResolution[res]`), in map order. -/
def partitionRes (metas : List (ULID × Meta)) (res : Int) : List Meta :=
  (metas.filter (fun p => p.2.resolution == res)).map Prod.snd

/-- The distinct downsampling resolutions present in `metas`. -/
def resolutionsOf (metas : List (ULID × Meta)) : List Int :=
  (metas.map (fun p => p.2.resolution)).dedup

/-- The duplicate IDs `filterForResolution` collects for one resolution:
the non-root IDs of the forest built from the sorted partition. -/
def dupIDsForRes (metas : List (ULID × Meta)) (res : Int) : List ULID :=
  getNonRootIDs (buildForest (sortMetas (partitionRes metas res)))

/-- The deletion loop at the end of `filterForResolution`: for each collected
duplicate ID, append it to `duplicateIDs` when it is still in the map,
increment `synced{duplicate}`, and delete it from `metas`. -/
def dedupDeleteStep (st : List (ULID × Meta) × List ULID × Nat) (id : ULID) :
    List (ULID × Meta) × List ULID × Nat :=
  (merase id st.1,
    (if (mlookup id st.1).isSome then st.2.1 ++ [id] else st.2.1),
    st.2.2 + 1)

/-- `DeduplicateFilter.Filter`: partition `metas` by resolution, compute each
partition's duplicates from the forest (the per-resolution goroutines act on
disjoint ID sets, folded here in resolution order), then run the deletion
loop.  `dups0` is the filter's accumulated `duplicateIDs` state. -/
def deduplicateFilter (dups0 : List ULID) (metas : List (ULID × Meta)) :
    List (ULID × Meta) × List ULID × Nat :=
  ((resolutionsOf metas).bind (fun res => dupIDsForRes metas res)).foldl
    dedupDeleteStep (metas, dups0, 0)

theorem dedupDelete_dups_accum :
    ∀ (l : List ULID) (m : List (ULID × Meta)) (d : List ULID) (c : Nat),
      (l.foldl dedupDeleteStep (m, d, c)).2.1 =
        d ++ (l.foldl dedupDeleteStep (m, [], c)).2.1 := by
  intro l
  induction l with
  | nil => intro m d c; simp
  | cons j rest ih =>
    intro m d c
    have hstep : ∀ d' : List ULID,
        List.foldl dedupDeleteStep (m, d', c) (j :: rest) =
          List.foldl dedupDeleteStep
            (merase j m, if (mlookup j m).isSome then d' ++ [j] else d', c + 1) rest := by
      intro d'
      rw [List.foldl_cons]
      rfl
    rw [hstep d, hstep []]
    by_cases hj : (mlookup j m).isSome = true
    · rw [if_pos hj, if_pos hj, ih (merase j m) (d ++ [j]) (c + 1),
        ih (merase j m) ([] ++ [j]) (c + 1)]
      simp
    · rw [if_neg hj, if_neg hj, ih (merase j m) d (c + 1)]

/-- C9: `duplicateIDs` is never cleared: `Filter` appends each invocation's
duplicates to the accumulated slice, so after two `Filter` runs over the
same metas map (two fetches of an unchanged bucket) each duplicate block ID
occurs twice as often in `DuplicateIDs()` as after one run. -/
theorem duplicate_ids_accumulate (metas : List (ULID × Meta)) (dups0 : List ULID)
    (id : ULID) :
    (deduplicateFilter dups0 metas).2.1 = dups0 ++ (deduplicateFilter [] metas).2.1 ∧
    ((deduplicateFilter (deduplicateFilter [] metas).2.1 metas).2.1).count id =
      2 * ((deduplicateFilter [] metas).2.1).count id := by
  constructor
  · unfold deduplicateFilter
    exact dedupDelete_dups_accum _ metas dups0 0
  · unfold deduplicateFilter
    rw [dedupDelete_dups_accum _ metas _ 0]
    rw [List.count_append]
    omega

theorem ULID.compare_eq_zero_iff (a b : ULID) : (a.compare b == 0) = true ↔ a = b := by
  obtain ⟨at1, ar⟩ := a
  obtain ⟨bt, br⟩ := b
  unfold ULID.compare
  dsimp only
  simp only [ULID.mk.injEq]
  split_ifs with h1 h2 h3 h4 <;> simp <;> omega

theorem ULID.compare_le_iff (a b : ULID) :
    a.compare b ≤ 0 ↔ (a.time < b.time ∨ (a.time = b.time ∧ a.rand ≤ b.rand)) := by
  obtain ⟨at1, ar⟩ := a
  obtain ⟨bt, br⟩ := b
  unfold ULID.compare
  dsimp only
  split_ifs with h1 h2 h3 h4 <;> simp <;> omega

instance : IsTotal Meta metaLE :=
  ⟨by
    intro a b
    unfold metaLE
    rw [ULID.compare_le_iff, ULID.compare_le_iff]
    omega⟩

instance : IsTrans Meta metaLE :=
  ⟨by
    intro a b c hab hbc
    unfold metaLE at hab hbc ⊢
    rw [ULID.compare_le_iff] at hab hbc ⊢
    omega⟩

theorem contains_iff (s1 s2 : List ULID) :
    contains s1 s2 = true ↔ ∀ x ∈ s2, x ∈ s1 := by
  unfold contains
  rw [List.all_eq_true]
  constructor
  · intro h x hx
    obtain ⟨e, he, hee⟩ := List.any_eq_true.mp (h x hx)
    rw [(ULID.compare_eq_zero_iff x e).mp hee]
    exact he
  · intro h x hx
    exact List.any_eq_true.mpr ⟨x, h x hx, (ULID.compare_eq_zero_iff x x).mpr rfl⟩

theorem contains_refl (s : List ULID) : contains s s = true :=
  (contains_iff s s).mpr (fun x hx => hx)

theorem contains_trans {s1 s2 s3 : List ULID} (h12 : contains s1 s2 = true)
    (h23 : contains s2 s3 = true) : contains s1 s3 = true := by
  rw [contains_iff] at h12 h23 ⊢
  exact fun x hx => h12 x (h23 x hx)

theorem length_lt_of_strict_contains {sa sb : List ULID}
    (hsub : contains sb sa = true) (hnsub : contains sa sb = false)
    (hna : sa.Nodup) (hnb : sb.Nodup) : sa.length < sb.length := by
  rw [contains_iff] at hsub
  have hfs : sa.toFinset ⊆ sb.toFinset := by
    intro x hx
    rw [List.mem_toFinset] at hx ⊢
    exact hsub x hx
  have hne : sa.toFinset ≠ sb.toFinset := by
    intro heq
    have : contains sa sb = true := by
      rw [contains_iff]
      intro x hx
      have : x ∈ sb.toFinset := List.mem_toFinset.mpr hx
      rw [← heq] at this
      exact List.mem_toFinset.mp this
    rw [hnsub] at this
    cases this
  have hcard : sa.toFinset.card < sb.toFinset.card :=
    Finset.card_lt_card (HasSubset.Subset.ssubset_of_ne hfs hne)
  rwa [List.toFinset_card_of_nodup hna, List.toFinset_card_of_nodup hnb] at hcard

theorem eq_sources_of_contains_of_le_length {sa sb : List ULID}
    (hsub : contains sb sa = true) (hna : sa.Nodup) (hnb : sb.Nodup)
    (hlen : sb.length ≤ sa.length) : contains sa sb = true := by
  rw [contains_iff] at hsub ⊢
  have hfs : sa.toFinset ⊆ sb.toFinset := by
    intro x hx
    rw [List.mem_toFinset] at hx ⊢
    exact hsub x hx
  have hcard : sb.toFinset.card ≤ sa.toFinset.card := by
    rw [List.toFinset_card_of_nodup hna, List.toFinset_card_of_nodup hnb]
    exact hlen
  have heq : sb.toFinset ⊆ sa.toFinset := Finset.subset_of_eq
    (Finset.eq_of_subset_of_card_le hfs hcard).symm
  intro x hx
  exact List.mem_toFinset.mp (heq (List.mem_toFinset.mpr hx))

theorem allIDs_nlAppend : ∀ l1 l2 : NodeList,
    allIDs (nlAppend l1 l2) = allIDs l1 ++ allIDs l2
  | NodeList.nil, l2 => by simp [nlAppend, allIDs]
  | NodeList.cons (Node.mk m cc) rest, l2 => by
    simp [nlAppend, allIDs, allIDs_nlAppend rest l2]

theorem topMetas_nlAppend : ∀ l1 l2 : NodeList,
    topMetas (nlAppend l1 l2) = topMetas l1 ++ topMetas l2
  | NodeList.nil, l2 => by simp [nlAppend, topMetas]
  | NodeList.cons (Node.mk m cc) rest, l2 => by
    simp [nlAppend, topMetas, topMetas_nlAppend rest l2]

theorem getNonRootIDs_nlAppend : ∀ l1 l2 : NodeList,
    getNonRootIDs (nlAppend l1 l2) = getNonRootIDs l1 ++ getNonRootIDs l2
  | NodeList.nil, l2 => by simp [nlAppend, getNonRootIDs]
  | NodeList.cons (Node.mk m cc) rest, l2 => by
    simp [nlAppend, getNonRootIDs, getNonRootIDs_nlAppend rest l2]

theorem mem_allIDs_insert (add : Meta) : ∀ (f : NodeList) (x : ULID),
    x ∈ allIDs f → x ∈ allIDs (addNodeBySources add f)
  | NodeList.nil, x, hx => by simp [allIDs] at hx
  | NodeList.cons (Node.mk cm cc) rest, x, hx => by
    rw [show allIDs (NodeList.cons (Node.mk cm cc) rest) =
      cm.ulid :: (allIDs cc ++ allIDs rest) from rfl] at hx
    unfold addNodeBySources
    by_cases h1 : contains cm.sources add.sources
    · by_cases h2 : contains add.sources cm.sources
      · rw [if_pos h1, if_pos h2]
        simp only [allIDs, allIDs_nlAppend, leafNode]
        simp at hx ⊢
        tauto
      · rw [if_pos h1, if_neg h2]
        simp only [allIDs]
        simp at hx ⊢
        rcases hx with h | h | h
        · tauto
        · exact Or.inr (Or.inl (mem_allIDs_insert add cc x h))
        · tauto
    · rw [if_neg h1]
      simp only [allIDs]
      simp at hx ⊢
      rcases hx with h | h | h
      · tauto
      · tauto
      · exact Or.inr (Or.inr (mem_allIDs_insert add rest x h))

theorem self_mem_allIDs_insert (add : Meta) : ∀ f : NodeList,
    add.ulid ∈ allIDs (addNodeBySources add f)
  | NodeList.nil => by simp [addNodeBySources, allIDs, leafNode]
  | NodeList.cons (Node.mk cm cc) rest => by
    unfold addNodeBySources
    by_cases h1 : contains cm.sources add.sources
    · by_cases h2 : contains add.sources cm.sources
      · rw [if_pos h1, if_pos h2]
        simp [allIDs, allIDs_nlAppend, leafNode]
      · rw [if_pos h1, if_neg h2]
        simp [allIDs]
        exact Or.inr (Or.inl (self_mem_allIDs_insert add cc))
    · rw [if_neg h1]
      simp [allIDs]
      exact Or.inr (Or.inr (self_mem_allIDs_insert add rest))

theorem mem_nonRoot_insert (add : Meta) : ∀ (f : NodeList) (x : ULID),
    x ∈ getNonRootIDs f → x ∈ getNonRootIDs (addNodeBySources add f)
  | NodeList.nil, x, hx => by simp [getNonRootIDs] at hx
  | NodeList.cons (Node.mk cm cc) rest, x, hx => by
    rw [show getNonRootIDs (NodeList.cons (Node.mk cm cc) rest) =
      allIDs cc ++ getNonRootIDs rest from rfl] at hx
    unfold addNodeBySources
    by_cases h1 : contains cm.sources add.sources
    · by_cases h2 : contains add.sources cm.sources
      · rw [if_pos h1, if_pos h2]
        simp only [getNonRootIDs, allIDs_nlAppend]
        simp at hx ⊢
        tauto
      · rw [if_pos h1, if_neg h2]
        simp only [getNonRootIDs]
        simp at hx ⊢
        rcases hx with h | h
        · exact Or.inl (mem_allIDs_insert add cc x h)
        · tauto
    · rw [if_neg h1]
      simp only [getNonRootIDs]
      simp at hx ⊢
      rcases hx with h | h
      · tauto
      · exact Or.inr (mem_nonRoot_insert add rest x h)

theorem capture_nonRoot_insert (add : Meta) : ∀ f : NodeList,
    (∃ t ∈ topMetas f, contains t.sources add.sources = true) →
    add.ulid ∈ getNonRootIDs (addNodeBySources add f)
  | NodeList.nil, h => by simp [topMetas] at h
  | NodeList.cons (Node.mk cm cc) rest, h => by
    unfold addNodeBySources
    by_cases h1 : contains cm.sources add.sources
    · by_cases h2 : contains add.sources cm.sources
      · rw [if_pos h1, if_pos h2]
        simp [getNonRootIDs, allIDs_nlAppend, allIDs, leafNode]
      · rw [if_pos h1, if_neg h2]
        simp only [getNonRootIDs]
        simp
        exact Or.inl (self_mem_allIDs_insert add cc)
    · rw [if_neg h1]
      simp only [getNonRootIDs]
      simp
      obtain ⟨t, ht, hc⟩ := h
      rw [show topMetas (NodeList.cons (Node.mk cm cc) rest) =
        cm :: topMetas rest from rfl] at ht
      rcases List.mem_cons.mp ht with he | hr
      · exfalso
        rw [he] at hc
        rw [hc] at h1
        exact h1 rfl
      · exact Or.inr (capture_nonRoot_insert add rest ⟨t, hr, hc⟩)

theorem topMetas_insert_of_container (add : Meta) : ∀ f : NodeList,
    (∃ t ∈ topMetas f, contains t.sources add.sources = true) →
    topMetas (addNodeBySources add f) = topMetas f
  | NodeList.nil, h => by simp [topMetas] at h
  | NodeList.cons (Node.mk cm cc) rest, h => by
    unfold addNodeBySources
    by_cases h1 : contains cm.sources add.sources
    · by_cases h2 : contains add.sources cm.sources
      · rw [if_pos h1, if_pos h2]
        rfl
      · rw [if_pos h1, if_neg h2]
        rfl
    · rw [if_neg h1]
      obtain ⟨t, ht, hc⟩ := h
      rw [show topMetas (NodeList.cons (Node.mk cm cc) rest) =
        cm :: topMetas rest from rfl] at ht
      rcases List.mem_cons.mp ht with he | hr
      · exfalso
        rw [he] at hc
        rw [hc] at h1
        exact h1 rfl
      · show cm :: topMetas (addNodeBySources add rest) = cm :: topMetas rest
        rw [topMetas_insert_of_container add rest ⟨t, hr, hc⟩]

theorem insert_of_no_container (add : Meta) : ∀ f : NodeList,
    (∀ t ∈ topMetas f, ¬ contains t.sources add.sources = true) →
    addNodeBySources add f = nlAppend f (NodeList.cons (leafNode add) NodeList.nil)
  | NodeList.nil, _ => by simp [addNodeBySources, nlAppend]
  | NodeList.cons (Node.mk cm cc) rest, h => by
    have h1 : ¬ contains cm.sources add.sources = true :=
      h cm (by rw [show topMetas (NodeList.cons (Node.mk cm cc) rest) =
        cm :: topMetas rest from rfl]; exact List.mem_cons_self cm (topMetas rest))
    unfold addNodeBySources
    rw [if_neg h1]
    show NodeList.cons (Node.mk cm cc) (addNodeBySources add rest) = _
    rw [insert_of_no_container add rest (fun t ht => h t (by
      rw [show topMetas (NodeList.cons (Node.mk cm cc) rest) =
        cm :: topMetas rest from rfl]
      exact List.mem_cons_of_mem cm ht))]
    rfl

theorem container_after_insert (add : Meta) : ∀ f : NodeList,
    ∃ t ∈ topMetas (addNodeBySources add f), contains t.sources add.sources = true
  | NodeList.nil =>
    ⟨add, by simp [addNodeBySources, topMetas, leafNode], contains_refl _⟩
  | NodeList.cons (Node.mk cm cc) rest => by
    unfold addNodeBySources
    by_cases h1 : contains cm.sources add.sources
    · by_cases h2 : contains add.sources cm.sources
      · rw [if_pos h1, if_pos h2]
        exact ⟨cm, by simp [topMetas], h1⟩
      · rw [if_pos h1, if_neg h2]
        exact ⟨cm, by simp [topMetas], h1⟩
    · rw [if_neg h1]
      obtain ⟨t, ht, hc⟩ := container_after_insert add rest
      exact ⟨t, by simp [topMetas]; exact Or.inr ht, hc⟩

theorem topMetas_mono (add : Meta) (f : NodeList) (t : Meta)
    (ht : t ∈ topMetas f) : t ∈ topMetas (addNodeBySources add f) := by
  by_cases hc : ∃ t' ∈ topMetas f, contains t'.sources add.sources = true
  · rw [topMetas_insert_of_container add f hc]
    exact ht
  · push_neg at hc
    rw [insert_of_no_container add f hc, topMetas_nlAppend]
    exact List.mem_append_left _ ht

theorem mem_allIDs_build_pres : ∀ (l : List Meta) (f : NodeList) (x : ULID),
    x ∈ allIDs f → x ∈ allIDs (l.foldl (fun f m => addNodeBySources m f) f) := by
  intro l
  induction l with
  | nil => intro f x hx; exact hx
  | cons b rest ih =>
    intro f x hx
    rw [List.foldl_cons]
    exact ih (addNodeBySources b f) x (mem_allIDs_insert b f x hx)

theorem mem_allIDs_build : ∀ (l : List Meta) (f : NodeList) (m : Meta),
    m ∈ l → m.ulid ∈ allIDs (l.foldl (fun f m => addNodeBySources m f) f) := by
  intro l
  induction l with
  | nil => intro f m h; simp at h
  | cons b rest ih =>
    intro f m hmem
    rw [List.foldl_cons]
    by_cases hb : m = b
    · rw [hb]
      exact mem_allIDs_build_pres rest (addNodeBySources b f) b.ulid
        (self_mem_allIDs_insert b f)
    · have : m ∈ rest := by
        rcases List.mem_cons.mp hmem with h | h
        · exact absurd h hb
        · exact h
      exact ih (addNodeBySources b f) m this

theorem mem_nonRoot_build_pres : ∀ (l : List Meta) (f : NodeList) (x : ULID),
    x ∈ getNonRootIDs f → x ∈ getNonRootIDs (l.foldl (fun f m => addNodeBySources m f) f) := by
  intro l
  induction l with
  | nil => intro f x hx; exact hx
  | cons b rest ih =>
    intro f x hx
    rw [List.foldl_cons]
    exact ih (addNodeBySources b f) x (mem_nonRoot_insert b f x hx)

theorem captured_in_build (a : Meta) : ∀ (l : List Meta) (f : NodeList),
    a ∈ l → (∃ t ∈ topMetas f, contains t.sources a.sources = true) →
    a.ulid ∈ getNonRootIDs (l.foldl (fun f m => addNodeBySources m f) f) := by
  intro l
  induction l with
  | nil => intro f h; simp at h
  | cons b rest ih =>
    intro f hmem hcont
    rw [List.foldl_cons]
    by_cases hb : a = b
    · subst hb
      exact mem_nonRoot_build_pres rest (addNodeBySources a f) a.ulid
        (capture_nonRoot_insert a f hcont)
    · have har : a ∈ rest := by
        rcases List.mem_cons.mp hmem with h | h
        · exact absurd h hb
        · exact h
      obtain ⟨t, ht, hc⟩ := hcont
      exact ih (addNodeBySources b f) har ⟨t, topMetas_mono b f t ht, hc⟩

theorem subset_removed_in_build (a b : Meta)
    (hsub : contains b.sources a.sources = true)
    (hlen : a.sources.length < b.sources.length) :
    ∀ (l : List Meta) (f : NodeList), List.Pairwise metaLE l → a ∈ l → b ∈ l →
      a.ulid ∈ getNonRootIDs (l.foldl (fun f m => addNodeBySources m f) f) := by
  intro l
  induction l with
  | nil => intro f _ h; simp at h
  | cons m rest ih =>
    intro f hpw hma hmb
    rw [List.foldl_cons]
    by_cases hmb' : m = b
    · have hcont : ∃ t ∈ topMetas (addNodeBySources m f),
          contains t.sources a.sources = true := by
        obtain ⟨t, ht, hc⟩ := container_after_insert m f
        refine ⟨t, ht, contains_trans hc ?_⟩
        rw [hmb']
        exact hsub
      have hane : a ≠ m := by
        intro he
        rw [he, hmb'] at hlen
        omega
      have har : a ∈ rest := by
        rcases List.mem_cons.mp hma with h | h
        · exact absurd h hane
        · exact h
      exact captured_in_build a rest (addNodeBySources m f) har hcont
    · have hbr : b ∈ rest := by
        rcases List.mem_cons.mp hmb with h | h
        · exact absurd h.symm hmb'
        · exact h
      have hane : a ≠ m := by
        intro he
        have hle := (List.pairwise_cons.mp hpw).1 b hbr
        rw [← he] at hle
        unfold metaLE at hle
        omega
      have har : a ∈ rest := by
        rcases List.mem_cons.mp hma with h | h
        · exact absurd h hane
        · exact h
      exact ih (addNodeBySources m f) (List.pairwise_cons.mp hpw).2 har hbr

theorem sortMetas_pairwise (l : List Meta) : List.Pairwise metaLE (sortMetas l) :=
  List.sorted_insertionSort metaLE l

theorem sortMetas_perm (l : List Meta) : List.Perm (sortMetas l) l :=
  List.perm_insertionSort metaLE l

theorem dedupDelete_foldl_cons (j : ULID) (rest : List ULID)
    (m : List (ULID × Meta)) (d : List ULID) (c : Nat) :
    List.foldl dedupDeleteStep (m, d, c) (j :: rest) =
      List.foldl dedupDeleteStep
        (merase j m, if (mlookup j m).isSome then d ++ [j] else d, c + 1) rest := by
  rw [List.foldl_cons]
  rfl

theorem mlookup_merase_none {α : Type} (j id : ULID) (m : List (ULID × α))
    (h : mlookup id m = none) : mlookup id (merase j m) = none := by
  by_cases hj : j = id
  · rw [hj]
    exact mlookup_merase_self id m
  · rw [mlookup_merase_ne id j m hj]
    exact h

theorem dedupDelete_none_pres : ∀ (l : List ULID) (m : List (ULID × Meta))
    (d : List ULID) (c : Nat) (id : ULID),
    mlookup id m = none → mlookup id ((l.foldl dedupDeleteStep (m, d, c)).1) = none := by
  intro l
  induction l with
  | nil => intro m d c id h; exact h
  | cons j rest ih =>
    intro m d c id h
    rw [dedupDelete_foldl_cons]
    exact ih _ _ _ id (mlookup_merase_none j id m h)

theorem dedupDelete_final_none : ∀ (l : List ULID) (m : List (ULID × Meta))
    (d : List ULID) (c : Nat) (id : ULID), id ∈ l →
    mlookup id ((l.foldl dedupDeleteStep (m, d, c)).1) = none := by
  intro l
  induction l with
  | nil => intro m d c id h; simp at h
  | cons j rest ih =>
    intro m d c id hmem
    rw [dedupDelete_foldl_cons]
    by_cases hj : j = id
    · exact dedupDelete_none_pres rest _ _ _ id
        (by rw [hj]; exact mlookup_merase_self id m)
    · have : id ∈ rest := by
        rcases List.mem_cons.mp hmem with h | h
        · exact absurd h.symm hj
        · exact h
      exact ih _ _ _ id this

/-- C4: for any two blocks A and B in `metas` at the same downsampling
resolution whose compaction source sets are in strict containment (A's
sources a strict subset of B's, as ULID sets), `DeduplicateFilter.Filter`
removes A from the metas map. -/
theorem dedup_strict_subset_removed (metas : List (ULID × Meta))
    (idA idB : ULID) (A B : Meta)
    (hA : (idA, A) ∈ metas) (hB : (idB, B) ∈ metas)
    (hres : A.resolution = B.resolution)
    (hsub : contains B.sources A.sources = true)
    (hnsub : contains A.sources B.sources = false)
    (hnodA : A.sources.Nodup) (hnodB : B.sources.Nodup)
    (hkey : idA = A.ulid) :
    mlookup idA (deduplicateFilter [] metas).1 = none := by
  have hlen : A.sources.length < B.sources.length :=
    length_lt_of_strict_contains hsub hnsub hnodA hnodB
  have hAp : A ∈ partitionRes metas A.resolution := by
    unfold partitionRes
    exact List.mem_map.mpr ⟨(idA, A), List.mem_filter.mpr ⟨hA, by simp⟩, rfl⟩
  have hBp : B ∈ partitionRes metas A.resolution := by
    unfold partitionRes
    exact List.mem_map.mpr ⟨(idB, B), List.mem_filter.mpr ⟨hB, by simp [hres]⟩, rfl⟩
  have hAs : A ∈ sortMetas (partitionRes metas A.resolution) :=
    (sortMetas_perm _).mem_iff.mpr hAp
  have hBs : B ∈ sortMetas (partitionRes metas A.resolution) :=
    (sortMetas_perm _).mem_iff.mpr hBp
  have hdup : A.ulid ∈ dupIDsForRes metas A.resolution :=
    subset_removed_in_build A B hsub hlen
      (sortMetas (partitionRes metas A.resolution)) NodeList.nil
      (sortMetas_pairwise _) hAs hBs
  have hresm : A.resolution ∈ resolutionsOf metas := by
    unfold resolutionsOf
    exact List.mem_dedup.mpr (List.mem_map.mpr ⟨(idA, A), hA, rfl⟩)
  have hall : A.ulid ∈ (resolutionsOf metas).bind (fun res => dupIDsForRes metas res) :=
    List.mem_bind.mpr ⟨A.resolution, hresm, hdup⟩
  rw [hkey]
  exact dedupDelete_final_none _ metas [] 0 A.ulid hall

/-- Source ULIDs for the concrete dedup instances. -/
def uS1 : ULID := { time := 10, rand := 0 }

/-- A second source ULID for the concrete dedup instances. -/
def uS2 : ULID := { time := 11, rand := 0 }

/-- The ULID of the covered (older, smaller-lineage) block. -/
def uA : ULID := { time := 20, rand := 0 }

/-- The ULID of the covering (larger-lineage) block. -/
def uB : ULID := { time := 21, rand := 0 }

/-- A block whose sources are strictly contained in `metaB`'s. -/
def metaA : Meta :=
  { ulid := uA, minTime := 0, maxTime := 1, version := 1, sources := [uS1],
    resolution := 0, labels := [], source := "sidecar" }

/-- A block covering `metaA`'s compaction sources. -/
def metaB : Meta :=
  { ulid := uB, minTime := 0, maxTime := 1, version := 1, sources := [uS1, uS2],
    resolution := 0, labels := [], source := "sidecar" }

/-- The concrete instantiation of `dedup_strict_subset_removed`: the block
with sources `{s1}` is removed when a block with sources `{s1, s2}` at the
same resolution is present. -/
theorem dedup_strict_subset_removed_witness :
    mlookup uA (deduplicateFilter [] [(uA, metaA), (uB, metaB)]).1 = none :=
  dedup_strict_subset_removed [(uA, metaA), (uB, metaB)] uA uB metaA metaB
    (by decide) (by decide) rfl (by decide) (by decide) (by decide) (by decide) rfl

theorem dedupDelete_map_filter : ∀ (l : List ULID) (m : List (ULID × Meta))
    (d : List ULID) (c : Nat),
    (l.foldl dedupDeleteStep (m, d, c)).1 = m.filter (fun p => decide (p.1 ∉ l)) := by
  intro l
  induction l with
  | nil =>
    intro m d c
    rw [List.foldl_nil]
    refine (List.filter_eq_self.mpr (fun q hq => ?_)).symm
    rw [decide_eq_true_eq]
    exact List.not_mem_nil q.1
  | cons j rest ih =>
    intro m d c
    rw [dedupDelete_foldl_cons, ih, merase_eq_filter, List.filter_filter]
    apply List.filter_congr
    intro q hq
    simp only [List.mem_cons, decide_not]
    by_cases h1 : q.1 = j <;> by_cases h2 : q.1 ∈ rest <;> simp [h1, h2]

theorem pairwise_notcontains_insert (add : Meta) (f : NodeList)
    (h : List.Pairwise (fun a b => ¬ contains a.sources b.sources = true) (topMetas f)) :
    List.Pairwise (fun a b => ¬ contains a.sources b.sources = true)
      (topMetas (addNodeBySources add f)) := by
  by_cases hc : ∃ t ∈ topMetas f, contains t.sources add.sources = true
  · rw [topMetas_insert_of_container add f hc]
    exact h
  · push_neg at hc
    rw [insert_of_no_container add f hc, topMetas_nlAppend]
    rw [show topMetas (NodeList.cons (leafNode add) NodeList.nil) = [add] from rfl]
    rw [List.pairwise_append]
    refine ⟨h, List.pairwise_singleton _ _, fun t ht b hb => ?_⟩
    rw [List.mem_singleton] at hb
    rw [hb]
    exact hc t ht

theorem pairwise_notcontains_build : ∀ (l : List Meta) (f : NodeList),
    List.Pairwise (fun a b => ¬ contains a.sources b.sources = true) (topMetas f) →
    List.Pairwise (fun a b => ¬ contains a.sources b.sources = true)
      (topMetas (l.foldl (fun f m => addNodeBySources m f) f)) := by
  intro l
  induction l with
  | nil => intro f h; exact h
  | cons b rest ih =>
    intro f h
    rw [List.foldl_cons]
    exact ih (addNodeBySources b f) (pairwise_notcontains_insert b f h)

theorem topMetas_insert_sublist (add : Meta) (f : NodeList) :
    List.Sublist (topMetas (addNodeBySources add f)) (topMetas f ++ [add]) := by
  by_cases hc : ∃ t ∈ topMetas f, contains t.sources add.sources = true
  · rw [topMetas_insert_of_container add f hc]
    exact List.sublist_append_left _ _
  · push_neg at hc
    rw [insert_of_no_container add f hc, topMetas_nlAppend]
    exact List.Sublist.refl _

theorem topMetas_build_sublist : ∀ (l : List Meta) (f : NodeList),
    List.Sublist (topMetas (l.foldl (fun f m => addNodeBySources m f) f))
      (topMetas f ++ l) := by
  intro l
  induction l with
  | nil =>
    intro f
    rw [List.append_nil]
    exact List.Sublist.refl _
  | cons b rest ih =>
    intro f
    rw [List.foldl_cons]
    have h1 := ih (addNodeBySources b f)
    have h2 : List.Sublist (topMetas (addNodeBySources b f) ++ rest)
        ((topMetas f ++ [b]) ++ rest) :=
      List.Sublist.append_right (topMetas_insert_sublist b f) rest
    have h3 := List.Sublist.trans h1 h2
    rwa [List.append_assoc, List.singleton_append] at h3

/-- Mutual non-containment of two source sets. -/
def ncSym (a b : Meta) : Prop :=
  ¬ contains a.sources b.sources = true ∧ ¬ contains b.sources a.sources = true

theorem ncSym_symm : Symmetric ncSym := fun _ _ h => ⟨h.2, h.1⟩

theorem ncSym_swap {a b : Meta} (h : ncSym a b) : ncSym b a := ⟨h.2, h.1⟩

theorem topMetas_pairwise_ncSym (l : List Meta) (hnod : ∀ m ∈ l, m.sources.Nodup) :
    List.Pairwise ncSym (topMetas (buildForest (sortMetas l))) := by
  have h1 : List.Pairwise (fun a b => ¬ contains a.sources b.sources = true)
      (topMetas (buildForest (sortMetas l))) := by
    apply pairwise_notcontains_build
    rw [show topMetas NodeList.nil = [] from rfl]
    exact List.Pairwise.nil
  have h2 : List.Sublist (topMetas (buildForest (sortMetas l))) (sortMetas l) := by
    have := topMetas_build_sublist (sortMetas l) NodeList.nil
    rwa [show topMetas NodeList.nil = [] from rfl, List.nil_append] at this
  have h3 : List.Pairwise metaLE (topMetas (buildForest (sortMetas l))) :=
    (sortMetas_pairwise l).sublist h2
  have h4 := h1.and h3
  apply h4.imp_of_mem
  intro a b ha hb hab
  have haml : a ∈ l := (sortMetas_perm l).mem_iff.mp (h2.subset ha)
  have hbml : b ∈ l := (sortMetas_perm l).mem_iff.mp (h2.subset hb)
  refine ⟨hab.1, ?_⟩
  intro hba
  have hlen : b.sources.length ≤ a.sources.length := by
    rcases hab.2 with h | h
    · omega
    · omega
  exact hab.1 (eq_sources_of_contains_of_le_length hba (hnod a haml) (hnod b hbml) hlen)

theorem mem_allIDs_split : ∀ (f : NodeList) (x : ULID),
    x ∈ allIDs f ↔ ((∃ t ∈ topMetas f, t.ulid = x) ∨ x ∈ getNonRootIDs f)
  | NodeList.nil, x => by simp [allIDs, topMetas, getNonRootIDs]
  | NodeList.cons (Node.mk m cc) rest, x => by
    rw [show allIDs (NodeList.cons (Node.mk m cc) rest) =
      m.ulid :: (allIDs cc ++ allIDs rest) from rfl]
    rw [show topMetas (NodeList.cons (Node.mk m cc) rest) = m :: topMetas rest from rfl]
    rw [show getNonRootIDs (NodeList.cons (Node.mk m cc) rest) =
      allIDs cc ++ getNonRootIDs rest from rfl]
    have hrest := mem_allIDs_split rest x
    simp only [List.mem_cons, List.mem_append] at hrest ⊢
    constructor
    · intro h
      rcases h with h | h | h
      · exact Or.inl ⟨m, Or.inl rfl, h.symm⟩
      · exact Or.inr (Or.inl h)
      · rcases hrest.mp h with ⟨t, ht, he⟩ | h'
        · exact Or.inl ⟨t, Or.inr ht, he⟩
        · exact Or.inr (Or.inr h')
    · intro h
      rcases h with ⟨t, ht, he⟩ | h | h
      · rcases ht with h1 | h1
        · rw [h1] at he
          exact Or.inl he.symm
        · exact Or.inr (Or.inr (hrest.mpr (Or.inl ⟨t, h1, he⟩)))
      · exact Or.inr (Or.inl h)
      · exact Or.inr (Or.inr (hrest.mpr (Or.inr h)))

theorem partition_ulid_inj (metas : List (ULID × Meta))
    (hk : (mkeys metas).Nodup) (hkey : ∀ p ∈ metas, p.1 = p.2.ulid) (res : Int)
    (x y : Meta) (hx : x ∈ partitionRes metas res) (hy : y ∈ partitionRes metas res)
    (he : x.ulid = y.ulid) : x = y := by
  unfold partitionRes at hx hy
  obtain ⟨px, hpx, hex⟩ := List.mem_map.mp hx
  obtain ⟨py, hpy, hey⟩ := List.mem_map.mp hy
  have hpx' : px ∈ metas := (List.mem_filter.mp hpx).1
  have hpy' : py ∈ metas := (List.mem_filter.mp hpy).1
  have hkeq : px.1 = py.1 := by
    rw [hkey px hpx', hkey py hpy', hex, hey, he]
  have := nodup_keys_inj metas hk px py hpx' hpy' hkeq
  rw [← hex, ← hey, this]

theorem survivor_mem_top (metas : List (ULID × Meta))
    (hk : (mkeys metas).Nodup) (hkey : ∀ p ∈ metas, p.1 = p.2.ulid)
    (p : ULID × Meta) (hp : p ∈ (deduplicateFilter [] metas).1) :
    p ∈ metas ∧
      p.2 ∈ topMetas (buildForest (sortMetas (partitionRes metas p.2.resolution))) := by
  unfold deduplicateFilter at hp
  rw [dedupDelete_map_filter] at hp
  have hpm : p ∈ metas := (List.mem_filter.mp hp).1
  have hnd : p.1 ∉ (resolutionsOf metas).bind (fun res => dupIDsForRes metas res) :=
    of_decide_eq_true (List.mem_filter.mp hp).2
  refine ⟨hpm, ?_⟩
  have hresm : p.2.resolution ∈ resolutionsOf metas := by
    unfold resolutionsOf
    exact List.mem_dedup.mpr (List.mem_map.mpr ⟨p, hpm, rfl⟩)
  have hnd2 : p.2.ulid ∉ dupIDsForRes metas p.2.resolution := by
    intro hin
    rw [hkey p hpm] at hnd
    exact hnd (List.mem_bind.mpr ⟨p.2.resolution, hresm, hin⟩)
  have hpart : p.2 ∈ partitionRes metas p.2.resolution := by
    unfold partitionRes
    exact List.mem_map.mpr ⟨p, List.mem_filter.mpr ⟨hpm, by simp⟩, rfl⟩
  have hsort : p.2 ∈ sortMetas (partitionRes metas p.2.resolution) :=
    (sortMetas_perm _).mem_iff.mpr hpart
  have hall : p.2.ulid ∈ allIDs (buildForest (sortMetas (partitionRes metas p.2.resolution))) :=
    mem_allIDs_build _ NodeList.nil p.2 hsort
  rcases (mem_allIDs_split _ p.2.ulid).mp hall with ⟨t, ht, hte⟩ | hnr
  · have htop_sub : List.Sublist
        (topMetas (buildForest (sortMetas (partitionRes metas p.2.resolution))))
        (sortMetas (partitionRes metas p.2.resolution)) := by
      have := topMetas_build_sublist (sortMetas (partitionRes metas p.2.resolution))
        NodeList.nil
      rwa [show topMetas NodeList.nil = [] from rfl, List.nil_append] at this
    have htpart : t ∈ partitionRes metas p.2.resolution :=
      (sortMetas_perm _).mem_iff.mp (htop_sub.subset ht)
    have heq : t = p.2 := partition_ulid_inj metas hk hkey p.2.resolution t p.2 htpart hpart hte
    rw [heq] at ht
    exact ht
  · exact absurd hnr hnd2

/-- The forest consisting of one childless node per meta, in order. -/
def leafList : List Meta → NodeList
  | [] => NodeList.nil
  | m :: rest => NodeList.cons (leafNode m) (leafList rest)

theorem nlAppend_nil : ∀ l : NodeList, nlAppend l NodeList.nil = l
  | NodeList.nil => rfl
  | NodeList.cons n rest => by rw [show nlAppend (NodeList.cons n rest) NodeList.nil =
      NodeList.cons n (nlAppend rest NodeList.nil) from rfl, nlAppend_nil rest]

theorem nlAppend_assoc : ∀ l1 l2 l3 : NodeList,
    nlAppend (nlAppend l1 l2) l3 = nlAppend l1 (nlAppend l2 l3)
  | NodeList.nil, l2, l3 => rfl
  | NodeList.cons n rest, l2, l3 => by
    rw [show nlAppend (NodeList.cons n rest) l2 = NodeList.cons n (nlAppend rest l2) from rfl]
    rw [show nlAppend (NodeList.cons n (nlAppend rest l2)) l3 =
      NodeList.cons n (nlAppend (nlAppend rest l2) l3) from rfl]
    rw [nlAppend_assoc rest l2 l3]
    rfl

theorem build_flat : ∀ (l : List Meta) (f : NodeList),
    (∀ t ∈ topMetas f, ∀ b ∈ l, ¬ contains t.sources b.sources = true) →
    List.Pairwise (fun a b => ¬ contains a.sources b.sources = true) l →
    l.foldl (fun f m => addNodeBySources m f) f = nlAppend f (leafList l) := by
  intro l
  induction l with
  | nil =>
    intro f _ _
    rw [List.foldl_nil, show leafList [] = NodeList.nil from rfl, nlAppend_nil]
  | cons b rest ih =>
    intro f hcross hpw
    rw [List.foldl_cons]
    have hnb : ∀ t ∈ topMetas f, ¬ contains t.sources b.sources = true :=
      fun t ht => hcross t ht b (List.mem_cons_self b rest)
    rw [insert_of_no_container b f hnb]
    have hcross' : ∀ t ∈ topMetas (nlAppend f (NodeList.cons (leafNode b) NodeList.nil)),
        ∀ c ∈ rest, ¬ contains t.sources c.sources = true := by
      intro t ht c hc
      rw [topMetas_nlAppend] at ht
      rcases List.mem_append.mp ht with h | h
      · exact hcross t h c (List.mem_cons_of_mem b hc)
      · rw [show topMetas (NodeList.cons (leafNode b) NodeList.nil) = [b] from rfl] at h
        rw [List.mem_singleton] at h
        rw [h]
        exact (List.pairwise_cons.mp hpw).1 c hc
    rw [ih (nlAppend f (NodeList.cons (leafNode b) NodeList.nil)) hcross'
      (List.pairwise_cons.mp hpw).2]
    rw [nlAppend_assoc]
    rfl

theorem getNonRootIDs_leafList : ∀ l : List Meta, getNonRootIDs (leafList l) = []
  | [] => rfl
  | m :: rest => by
    rw [show getNonRootIDs (leafList (m :: rest)) =
      allIDs NodeList.nil ++ getNonRootIDs (leafList rest) from rfl]
    rw [getNonRootIDs_leafList rest]
    rfl

theorem bind_nil_of_all {α β : Type} : ∀ (L : List α) (g : α → List β),
    (∀ r ∈ L, g r = []) → L.bind g = []
  | [], _, _ => rfl
  | r :: rest, g, h => by
    show g r ++ rest.bind g = []
    rw [h r (List.mem_cons_self r rest), List.nil_append]
    exact bind_nil_of_all rest g (fun x hx => h x (List.mem_cons_of_mem r hx))

theorem filtered_spec (metas : List (ULID × Meta)) :
    (deduplicateFilter [] metas).1 =
      metas.filter (fun p =>
        decide (p.1 ∉ (resolutionsOf metas).bind (fun res => dupIDsForRes metas res))) := by
  unfold deduplicateFilter
  rw [dedupDelete_map_filter]

theorem filtered_entries_sub (metas : List (ULID × Meta)) (p : ULID × Meta)
    (hp : p ∈ (deduplicateFilter [] metas).1) : p ∈ metas := by
  rw [filtered_spec] at hp
  exact (List.mem_filter.mp hp).1

theorem filtered_nodup (metas : List (ULID × Meta)) (hk : (mkeys metas).Nodup) :
    ((deduplicateFilter [] metas).1).Nodup ∧
      (mkeys (deduplicateFilter [] metas).1).Nodup := by
  rw [filtered_spec]
  have hsub : List.Sublist (mkeys (metas.filter (fun p =>
      decide (p.1 ∉ (resolutionsOf metas).bind (fun res => dupIDsForRes metas res)))))
      (mkeys metas) :=
    List.Sublist.map Prod.fst (List.filter_sublist metas)
  have hkn : (mkeys (metas.filter (fun p =>
      decide (p.1 ∉ (resolutionsOf metas).bind (fun res => dupIDsForRes metas res))))).Nodup :=
    hk.sublist hsub
  exact ⟨List.Nodup.of_map Prod.fst hkn, hkn⟩

theorem second_run_dups_nil (metas : List (ULID × Meta))
    (hk : (mkeys metas).Nodup) (hkey : ∀ p ∈ metas, p.1 = p.2.ulid)
    (hnod : ∀ p ∈ metas, p.2.sources.Nodup) :
    (resolutionsOf (deduplicateFilter [] metas).1).bind
      (fun res => dupIDsForRes (deduplicateFilter [] metas).1 res) = [] := by
  apply bind_nil_of_all
  intro res hres
  unfold dupIDsForRes
  have hpart_top : ∀ x ∈ partitionRes (deduplicateFilter [] metas).1 res,
      x ∈ topMetas (buildForest (sortMetas (partitionRes metas res))) := by
    intro x hx
    unfold partitionRes at hx
    obtain ⟨p, hpf, hpe⟩ := List.mem_map.mp hx
    have hpfil : p ∈ (deduplicateFilter [] metas).1 := (List.mem_filter.mp hpf).1
    have hpres : p.2.resolution = res := by
      have := (List.mem_filter.mp hpf).2
      rwa [beq_iff_eq] at this
    have := (survivor_mem_top metas hk hkey p hpfil).2
    rw [hpres] at this
    rw [← hpe]
    exact this
  have hncsym_top : List.Pairwise ncSym
      (topMetas (buildForest (sortMetas (partitionRes metas res)))) := by
    apply topMetas_pairwise_ncSym
    intro m hm
    unfold partitionRes at hm
    obtain ⟨p, hpm, hpe⟩ := List.mem_map.mp hm
    rw [← hpe]
    exact hnod p (List.mem_filter.mp hpm).1
  have hpart_nodup : (partitionRes (deduplicateFilter [] metas).1 res).Nodup := by
    unfold partitionRes
    apply List.Nodup.map_on
    · intro x hx y hy he
      have hxf : x ∈ (deduplicateFilter [] metas).1 := (List.mem_filter.mp hx).1
      have hyf : y ∈ (deduplicateFilter [] metas).1 := (List.mem_filter.mp hy).1
      have hxm : x ∈ metas := filtered_entries_sub metas x hxf
      have hym : y ∈ metas := filtered_entries_sub metas y hyf
      have hkx : x.1 = y.1 := by
        rw [hkey x hxm, hkey y hym, he]
      exact nodup_keys_inj metas hk x y hxm hym hkx
    · exact ((filtered_nodup metas hk).1).sublist (List.filter_sublist _)
  have hncsym_part : List.Pairwise ncSym
      (partitionRes (deduplicateFilter [] metas).1 res) := by
    apply List.Pairwise.imp_of_mem ?_ hpart_nodup
    intro a b ha hb hab
    exact hncsym_top.forall ncSym_symm (hpart_top a ha) (hpart_top b hb) hab
  have hncsym_sort : List.Pairwise ncSym
      (sortMetas (partitionRes (deduplicateFilter [] metas).1 res)) := by
    rw [List.Perm.pairwise_iff ncSym_swap (sortMetas_perm _)]
    exact hncsym_part
  have hnc_sort : List.Pairwise (fun a b => ¬ contains a.sources b.sources = true)
      (sortMetas (partitionRes (deduplicateFilter [] metas).1 res)) :=
    hncsym_sort.imp (fun h => h.1)
  unfold buildForest
  rw [build_flat _ NodeList.nil
    (by rw [show topMetas NodeList.nil = [] from rfl]; intro t ht; simp at ht) hnc_sort]
  rw [show nlAppend NodeList.nil
    (leafList (sortMetas (partitionRes (deduplicateFilter [] metas).1 res))) =
    leafList (sortMetas (partitionRes (deduplicateFilter [] metas).1 res)) from rfl]
  exact getNonRootIDs_leafList _

/-- C5: deduplication is idempotent: on the surviving map of a
`DeduplicateFilter.Filter` run, a second run finds no duplicates — it deletes
nothing and appends nothing to `duplicateIDs`; the surviving map is a fixed
point.  Hypotheses: map keys are distinct and equal to each block's ULID, and
source lists carry no duplicate entries (all true of real meta maps). -/
theorem dedup_idempotent (metas : List (ULID × Meta))
    (hk : (mkeys metas).Nodup) (hkey : ∀ p ∈ metas, p.1 = p.2.ulid)
    (hnod : ∀ p ∈ metas, p.2.sources.Nodup) :
    ((resolutionsOf (deduplicateFilter [] metas).1).bind
        (fun res => dupIDsForRes (deduplicateFilter [] metas).1 res) = []) ∧
    (deduplicateFilter [] (deduplicateFilter [] metas).1).1 =
      (deduplicateFilter [] metas).1 ∧
    (deduplicateFilter [] (deduplicateFilter [] metas).1).2.1 = [] := by
  have hnil := second_run_dups_nil metas hk hkey hnod
  refine ⟨hnil, ?_, ?_⟩
  · generalize hF : (deduplicateFilter [] metas).1 = F at hnil ⊢
    unfold deduplicateFilter
    rw [hnil, List.foldl_nil]
  · generalize hF : (deduplicateFilter [] metas).1 = F at hnil ⊢
    unfold deduplicateFilter
    rw [hnil, List.foldl_nil]

/-- The concrete instantiation of `dedup_idempotent` at a two-block map
whose first block is covered by the second: the second run leaves the
one-survivor map unchanged. -/
theorem dedup_idempotent_witness :
    (deduplicateFilter [] (deduplicateFilter [] [(uA, metaA), (uB, metaB)]).1).1 =
      (deduplicateFilter [] [(uA, metaA), (uB, metaB)]).1 :=
  (dedup_idempotent [(uA, metaA), (uB, metaB)] (by decide) (by decide) (by decide)).2.1
